import Mathlib

/-!
Verification of the SNMPv1 core (ASN.1 BER codec, SNMP message layer, agent
engine, client) against its natural-language specification.

The Rust source is shallowly embedded:
byte buffers become lists of natural numbers (each byte is below 256),
fallible decoders become functions into Except, i32 becomes Int together with
explicit range hypotheses where the proofs need them, u8 and u32 casts become
explicit modular reductions, and Rust panics (buffer over-reads of the bytes
crate, arithmetic underflow of usize subtraction in debug profile) become the
distinguished error value DErr.crash, while ordinary anyhow errors become
DErr.fail.

Rust arithmetic right shift by 8 on i32 equals flooring division by 256, which
is Int division (ediv) in Lean; bit tests such as x and 0x80 on bytes are kept
as Nat bitwise operations.
-/

set_option maxRecDepth 8192

/-- Error type for the embedded decoders: fail models an anyhow error return,
crash models a Rust panic (for example get u8 on an exhausted bytes buffer). -/
inductive DErr
  | fail
  | crash
deriving DecidableEq

-- ASN.1 BER tag constants from src/asn1/encode.rs
def INTEGER_TAG : Nat := 0x02

def OCTET_STRING_TAG : Nat := 0x04

def NULL_TAG : Nat := 0x05

def OBJECT_IDENTIFIER_TAG : Nat := 0x06

/-- The tag constant named SEQUENCE TAG in the source is 0x33 (not the
canonical 0x30). -/
def SEQUENCE_TAG : Nat := 0x33

def GET_REQUEST_TAG : Nat := 0xA0

def GET_RESPONSE_TAG : Nat := 0xA2

def GET_NEXT_REQUEST_TAG : Nat := 0xA1

def SET_REQUEST_TAG : Nat := 0xA3

/-- The while loop of encode length that pushes the base 256 digits of len,
least significant first (bytes.push over temp, temp shifted right by 8). The
first argument is fuel that keeps the recursion structural; the caller passes
the value itself, which bounds the iteration count since every iteration
divides the value by 256, so the fuel 0 with a nonzero value is unreachable. -/
def lenBytesLEAux : Nat → Nat → List Nat
  | _, 0 => []
  | 0, _ + 1 => []
  | f + 1, m + 1 => (m + 1) % 256 :: lenBytesLEAux f ((m + 1) / 256)

def lenBytesLE (n : Nat) : List Nat := lenBytesLEAux n n

/-- encode length from src/asn1/encode.rs: short form when len is at most 128
(the source boundary, a slip from the BER boundary 127), else long form with
the byte count ored with 0x80 followed by the big endian digits. -/
def encode_length (len : Nat) : List Nat :=
  if len ≤ 128 then [len]
  else (0x80 ||| (lenBytesLE len).length) :: (lenBytesLE len).reverse

/-- The while loop of encode integer: number of content bytes, starting at 1
and shifting arithmetically right by 8 (flooring division by 256) while the
value is outside the one byte signed range. -/
def intLen (temp : Int) : Nat :=
  if 127 < temp ∨ temp < -128 then intLen (temp / 256) + 1 else 1
termination_by temp.natAbs
decreasing_by
  rename_i h
  omega

/-- encode integer from src/asn1/encode.rs: tag, length, then the len lowest
bytes of the value, most significant first; (value >> shift) cast to u8 is
the flooring shift followed by reduction mod 256. -/
def encode_integer (value : Int) : List Nat :=
  INTEGER_TAG :: encode_length (intLen value) ++
    (List.range (intLen value)).reverse.map
      (fun i => ((value / 2 ^ (8 * i)) % 256).toNat)

def encode_octet_string (data : List Nat) : List Nat :=
  OCTET_STRING_TAG :: encode_length data.length ++ data

def encode_null : List Nat := [NULL_TAG, 0x00]

/-- encode sequence from src/asn1/encode.rs: tag byte, encoded content length,
then the content bytes. -/
def encode_sequence (content : List Nat) (tag : Nat) : List Nat :=
  tag :: encode_length content.length ++ content

/-- The while loop in the multi byte branch of encode oid: pushes the higher
base 128 groups with the continuation bit 0x80 set, least significant first.
Fueled like lenBytesLEAux; every iteration divides the value by 128. -/
def b128loopAux : Nat → Nat → List Nat
  | _, 0 => []
  | 0, _ + 1 => []
  | f + 1, t + 1 => (((t + 1) &&& 0x7F) ||| 0x80) :: b128loopAux f ((t + 1) / 128)

def b128loop (t : Nat) : List Nat := b128loopAux t t

/-- Encoding of one sub identifier in encode oid: a single byte for values
below 128, else the reversed continuation groups followed by the low 7 bits. -/
def subIdBytes (num : Nat) : List Nat :=
  if num < 128 then [num]
  else (b128loop (num >>> 7)).reverse ++ [num &&& 0x7F]

/-- encode oid from src/asn1/encode.rs. The length prefix is computed as
oid.len() - 1 (not the byte count of the body). On an empty oid that usize
subtraction underflows, which panics in the debug profile: modelled as none.
The first two components collapse into the single byte 40 * a + b cast to u8. -/
def encode_oid : List Nat → Option (List Nat)
  | [] => none
  | a :: rest =>
    let headByte : List Nat :=
      match rest with
      | b :: _ => [(40 * a + b) % 256]
      | [] => []
    let body := headByte ++ (((a :: rest).drop 2).map subIdBytes).flatten
    some (OBJECT_IDENTIFIER_TAG :: encode_length ((a :: rest).length - 1) ++ body)

-- Decoders from src/asn1/decode.rs, in state passing style: a decoder takes
-- the buffer and returns the decoded value together with the remaining bytes.

def peek_tag : List Nat → Except DErr Nat
  | [] => .error .fail
  | b :: _ => .ok b

def decode_tag : List Nat → Except DErr (Nat × List Nat)
  | [] => .error .fail
  | b :: rest => .ok (b, rest)

/-- decode length: short form below 0x80, else long form whose low 7 bits give
the count of subsequent big endian bytes, rejected above 4. -/
def decode_length : List Nat → Except DErr (Nat × List Nat)
  | [] => .error .fail
  | first :: rest =>
    if first < 0x80 then .ok (first, rest)
    else
      let numBytes := first &&& 0x7F
      if 4 < numBytes then .error .fail
      else if rest.length < numBytes then .error .fail
      else .ok ((rest.take numBytes).foldl (fun acc b => (acc <<< 8) ||| b) 0,
                rest.drop numBytes)

/-- Container tag check of decode sequence: the source accepts its 0x33
sequence constant and the four context specific PDU tags. -/
def seqTagOk (tag : Nat) : Bool :=
  tag == SEQUENCE_TAG || tag == GET_REQUEST_TAG || tag == GET_NEXT_REQUEST_TAG
    || tag == GET_RESPONSE_TAG || tag == SET_REQUEST_TAG

def decode_sequence (buf : List Nat) : Except DErr (List Nat × List Nat) :=
  match decode_tag buf with
  | .error e => .error e
  | .ok (tag, b1) =>
    if seqTagOk tag then
      match decode_length b1 with
      | .error e => .error e
      | .ok (len, b2) =>
        if b2.length < len then .error .fail
        else .ok (b2.take len, b2.drop len)
    else .error .fail

/-- The for loop of decode integer reading the remaining content bytes with
unchecked get u8; value << 8 or byte equals value * 256 + byte on i32 since
the freed low bits are zero and the byte is below 256. -/
def readIntBytes : Nat → Int → List Nat → Except DErr (Int × List Nat)
  | 0, v, buf => .ok (v, buf)
  | _ + 1, _, [] => .error .crash
  | n + 1, v, b :: rest => readIntBytes n (v * 256 + b) rest

/-- The body of decode integer from src/asn1/decode.rs after tag and length
have been read. The first content byte is read with an unchecked get u8 even
when the declared length is 0; the sign seed is -1 when its high bit is set,
and -1 << 8 or byte equals -256 + byte. -/
def decode_integer_body (len : Nat) (b2 : List Nat) : Except DErr (Int × List Nat) :=
  if 4 < len then .error .fail
  else if b2.length < len then .error .fail
  else
    match b2 with
    | [] => .error .crash
    | first :: b3 =>
      let v0 : Int := if first &&& 0x80 ≠ 0 then -1 else 0
      readIntBytes (len - 1) (v0 * 256 + first) b3

def decode_integer (buf : List Nat) : Except DErr (Int × List Nat) :=
  match decode_tag buf with
  | .error e => .error e
  | .ok (tag, b1) =>
    if tag = INTEGER_TAG then
      match decode_length b1 with
      | .error e => .error e
      | .ok (len, b2) => decode_integer_body len b2
    else .error .fail

def decode_octet_string (buf : List Nat) : Except DErr (List Nat × List Nat) :=
  match decode_tag buf with
  | .error e => .error e
  | .ok (tag, b1) =>
    if tag = OCTET_STRING_TAG then
      match decode_length b1 with
      | .error e => .error e
      | .ok (len, b2) =>
        if b2.length < len then .error .fail
        else .ok (b2.take len, b2.drop len)
    else .error .fail

def decode_null (buf : List Nat) : Except DErr (Unit × List Nat) :=
  match decode_tag buf with
  | .error e => .error e
  | .ok (tag, b1) =>
    if tag = NULL_TAG then
      match decode_length b1 with
      | .error e => .error e
      | .ok (len, b2) =>
        if len ≠ 0 then .error .fail
        else .ok ((), b2)
    else .error .fail

/-- The nested loops of decode oid over the sub identifier bytes: the inner
loop accumulates 7 bit groups into a u32 (value << 7 or low7, with the u32
wrap made explicit) until a byte with clear high bit ends the component; the
outer loop repeats while bytes remain. Reading past the end of the component
bytes is the bytes crate panic, modelled as crash. -/
def decodeSubIdsAux : List Nat → Nat → Except DErr (List Nat)
  | [], _ => .error .crash
  | b :: rest, acc =>
    let acc2 := acc * 128 % 2 ^ 32 + (b &&& 0x7F)
    if b &&& 0x80 = 0 then
      match rest with
      | [] => .ok [acc2]
      | _ :: _ => (decodeSubIdsAux rest 0).map (fun vs => acc2 :: vs)
    else decodeSubIdsAux rest acc2

def decodeSubIds : List Nat → Except DErr (List Nat)
  | [] => .ok []
  | b :: rest => decodeSubIdsAux (b :: rest) 0

/-- decode oid from src/asn1/decode.rs: tag, declared length, then the first
content byte splits as divmod 40 into the first two components and the rest
decodes as base 128 sub identifiers. An empty content slice is a clean error. -/
def decode_oid (buf : List Nat) : Except DErr (List Nat × List Nat) :=
  match decode_tag buf with
  | .error e => .error e
  | .ok (tag, b1) =>
    if tag = OBJECT_IDENTIFIER_TAG then
      match decode_length b1 with
      | .error e => .error e
      | .ok (len, b2) =>
        if b2.length < len then .error .fail
        else
          match b2.take len with
          | [] => .error .fail
          | first :: more =>
            match decodeSubIds more with
            | .error e => .error e
            | .ok subs => .ok (first / 40 :: first % 40 :: subs, b2.drop len)
    else .error .fail

-- SNMP message layer from src/snmp.rs

def SNMP_VERSION_1 : Nat := 0x00

inductive PduType
  | GET_REQUEST
  | GET_RESPONSE
  | GET_NEXT_REQUEST
  | SET_REQUEST
deriving DecidableEq

def PduType.to_tag : PduType → Nat
  | .GET_REQUEST => GET_REQUEST_TAG
  | .GET_RESPONSE => GET_RESPONSE_TAG
  | .GET_NEXT_REQUEST => GET_NEXT_REQUEST_TAG
  | .SET_REQUEST => SET_REQUEST_TAG

inductive SnmpValue
  | Integer (i : Int)
  | OctetString (s : List Nat)
  | Null
  | ObjectIdentifier (oid : List Nat)
deriving DecidableEq

structure Varbind where
  oid : List Nat
  value : SnmpValue
deriving DecidableEq

structure SnmpPdu where
  pdu_type : PduType
  request_id : Int
  error_status : Int
  error_index : Int
  varbinds : List Varbind
deriving DecidableEq

structure SnmpMessage where
  version : Int
  community : List Nat
  pdu : SnmpPdu
deriving DecidableEq

/-- decode varbind from src/snmp.rs: a container sequence holding an oid and a
value whose decoder is chosen by peeking the next tag; bytes left inside the
varbind sequence after the value are discarded. -/
def decodeVarbindValue (tag : Nat) (s1 : List Nat) : Except DErr SnmpValue :=
  if tag = INTEGER_TAG then
    match decode_integer s1 with
    | .error e => .error e
    | .ok p => .ok (SnmpValue.Integer p.1)
  else if tag = OCTET_STRING_TAG then
    match decode_octet_string s1 with
    | .error e => .error e
    | .ok p => .ok (SnmpValue.OctetString p.1)
  else if tag = NULL_TAG then
    match decode_null s1 with
    | .error e => .error e
    | .ok _ => .ok SnmpValue.Null
  else if tag = OBJECT_IDENTIFIER_TAG then
    match decode_oid s1 with
    | .error e => .error e
    | .ok p => .ok (SnmpValue.ObjectIdentifier p.1)
  else .error .fail

def decode_varbind (buf : List Nat) : Except DErr (Varbind × List Nat) :=
  match decode_sequence buf with
  | .error e => .error e
  | .ok (seqData, rest) =>
    match decode_oid seqData with
    | .error e => .error e
    | .ok (oid, s1) =>
      match peek_tag s1 with
      | .error e => .error e
      | .ok tag =>
        match decodeVarbindValue tag s1 with
        | .error e => .error e
        | .ok value => .ok (⟨oid, value⟩, rest)

/-- The while loop of decode varbind list, which repeats while bytes of the
list sequence remain. Every successful decode varbind consumes at least the
container tag byte, so the buffer length is enough fuel; the fuel exhaustion
branch is unreachable (see decode_varbind_shrinks below). -/
def decodeVarbindsAux : Nat → List Nat → Except DErr (List Varbind)
  | _, [] => .ok []
  | 0, _ :: _ => .error .crash
  | fuel + 1, b :: rest =>
    match decode_varbind (b :: rest) with
    | .error e => .error e
    | .ok (v, r) =>
      match decodeVarbindsAux fuel r with
      | .error e => .error e
      | .ok vs => .ok (v :: vs)

def decode_varbind_list (buf : List Nat) : Except DErr (List Varbind × List Nat) :=
  match decode_sequence buf with
  | .error e => .error e
  | .ok (seqData, rest) =>
    match decodeVarbindsAux seqData.length seqData with
    | .error e => .error e
    | .ok vs => .ok (vs, rest)

/-- decode pdu from src/snmp.rs: the peeked container tag selects the PDU
kind, then the sequence content yields request id, error status, error index
and the varbind list. -/
def tagToPduType (tag : Nat) : Except DErr PduType :=
  if tag = GET_REQUEST_TAG then .ok PduType.GET_REQUEST
  else if tag = GET_NEXT_REQUEST_TAG then .ok PduType.GET_NEXT_REQUEST
  else if tag = GET_RESPONSE_TAG then .ok PduType.GET_RESPONSE
  else if tag = SET_REQUEST_TAG then .ok PduType.SET_REQUEST
  else .error .fail

def decode_pdu (buf : List Nat) : Except DErr (SnmpPdu × List Nat) :=
  match peek_tag buf with
  | .error e => .error e
  | .ok tag =>
    match tagToPduType tag with
    | .error e => .error e
    | .ok pduType =>
      match decode_sequence buf with
      | .error e => .error e
      | .ok (pduData, rest) =>
        match decode_integer pduData with
        | .error e => .error e
        | .ok (requestId, d1) =>
          match decode_integer d1 with
          | .error e => .error e
          | .ok (errorStatus, d2) =>
            match decode_integer d2 with
            | .error e => .error e
            | .ok (errorIndex, d3) =>
              match decode_varbind_list d3 with
              | .error e => .error e
              | .ok (varbinds, _) =>
                .ok (⟨pduType, requestId, errorStatus, errorIndex, varbinds⟩, rest)

/-- decode snmp message from src/snmp.rs: outer sequence, version integer
(rejected unless 0), community octet string, then the PDU. -/
def decode_snmp_message (data : List Nat) : Except DErr SnmpMessage :=
  match decode_sequence data with
  | .error e => .error e
  | .ok (msgData, _) =>
    match decode_integer msgData with
    | .error e => .error e
    | .ok (version, m1) =>
      if version ≠ (SNMP_VERSION_1 : Int) then .error .fail
      else
        match decode_octet_string m1 with
        | .error e => .error e
        | .ok (community, m2) =>
          match decode_pdu m2 with
          | .error e => .error e
          | .ok (pdu, _) => .ok ⟨version, community, pdu⟩

-- Response building from src/snmp.rs. Each function mirrors one BytesMut
-- buffer of the source: the content functions are the inner buffers before
-- the enclosing encode sequence call. encode oid can panic (empty oid), so
-- the builders are Option valued.

def encodeValue : SnmpValue → Option (List Nat)
  | .Integer i => some (encode_integer i)
  | .OctetString s => some (encode_octet_string s)
  | .Null => some encode_null
  | .ObjectIdentifier oid => encode_oid oid

/-- The varbind buf of build response varbind: encoded oid then encoded value. -/
def respVarbindContent (v : Varbind) : Option (List Nat) :=
  match encode_oid v.oid, encodeValue v.value with
  | some oidB, some valB => some (oidB ++ valB)
  | _, _ => none

def build_response_varbind (v : Varbind) : Option (List Nat) :=
  (respVarbindContent v).map (fun c => encode_sequence c SEQUENCE_TAG)

/-- The varbind list buf of build response varbind list: concatenation of the
wrapped varbinds. -/
def respVblContent : List Varbind → Option (List Nat)
  | [] => some []
  | v :: vs =>
    match build_response_varbind v, respVblContent vs with
    | some b, some rest => some (b ++ rest)
    | _, _ => none

def build_response_varbind_list (vbs : List Varbind) : Option (List Nat) :=
  (respVblContent vbs).map (fun c => encode_sequence c SEQUENCE_TAG)

/-- The pdu buf of build response pdu: request id, error status, error index,
then the wrapped varbind list. -/
def respPduContent (request : SnmpPdu) (vbs : List Varbind) (es ei : Int) :
    Option (List Nat) :=
  match build_response_varbind_list vbs with
  | none => none
  | some vbl =>
    some (encode_integer request.request_id ++ encode_integer es ++
          encode_integer ei ++ vbl)

def build_response_pdu (request : SnmpPdu) (vbs : List Varbind) (es ei : Int) :
    Option (List Nat) :=
  (respPduContent request vbs es ei).map
    (fun c => encode_sequence c GET_RESPONSE_TAG)

/-- The msg buf of build response message: version and community of the
request, then the response PDU. -/
def respMsgContent (request : SnmpMessage) (vbs : List Varbind) (es ei : Int) :
    Option (List Nat) :=
  match build_response_pdu request.pdu vbs es ei with
  | none => none
  | some pduB =>
    some (encode_integer request.version ++
          encode_octet_string request.community ++ pduB)

def build_response_message (request : SnmpMessage) (vbs : List Varbind)
    (es ei : Int) : Option (List Nat) :=
  (respMsgContent request vbs es ei).map
    (fun c => encode_sequence c SEQUENCE_TAG)

-- Request building from src/snmp.rs (used by the client).

def build_varbind (oid : List Nat) : Option (List Nat) :=
  match encode_oid oid with
  | none => none
  | some oidB => some (encode_sequence (oidB ++ encode_null) SEQUENCE_TAG)

def buildVarbindsContent : List (List Nat) → Option (List Nat)
  | [] => some []
  | oid :: oids =>
    match build_varbind oid, buildVarbindsContent oids with
    | some b, some rest => some (b ++ rest)
    | _, _ => none

def build_varbind_list (oids : List (List Nat)) : Option (List Nat) :=
  (buildVarbindsContent oids).map (fun c => encode_sequence c SEQUENCE_TAG)

def build_pdu (requestId errorStatus errorIndex : Int)
    (varbindList : List Nat) (pduType : PduType) : List Nat :=
  encode_sequence
    (encode_integer requestId ++ encode_integer errorStatus ++
     encode_integer errorIndex ++ varbindList) pduType.to_tag

def build_snmp_msg (community : List Nat) (pdu : List Nat) : List Nat :=
  encode_sequence
    (encode_integer (SNMP_VERSION_1 : Int) ++ encode_octet_string community ++ pdu)
    SEQUENCE_TAG

-- Agent engine from src/agent.rs. The MIB (a HashMap in the source) is
-- modelled as an association list with unique keys; get is lookup.

def mibGet : List (List Nat × SnmpValue) → List Nat → Option SnmpValue
  | [], _ => none
  | (k, v) :: rest, oid => if k = oid then some v else mibGet rest oid

def mibInsert : List (List Nat × SnmpValue) → List Nat → SnmpValue →
    List (List Nat × SnmpValue)
  | [], k, v => [(k, v)]
  | (k0, v0) :: rest, k, v =>
    if k0 = k then (k, v) :: rest else (k0, v0) :: mibInsert rest k v

/-- The per varbind loop of handle get request. State: position i, then the
current error status and error index. A missing oid sets error status 2 and
error index i + 1 unconditionally, overwriting any earlier values. -/
def getLoop (mib : List (List Nat × SnmpValue)) :
    List Varbind → Nat → Int → Int → List Varbind × Int × Int
  | [], _, es, ei => ([], es, ei)
  | v :: rest, i, es, ei =>
    match mibGet mib v.oid with
    | some value =>
      let r := getLoop mib rest (i + 1) es ei
      (⟨v.oid, value⟩ :: r.1, r.2)
    | none =>
      let r := getLoop mib rest (i + 1) 2 ((i : Int) + 1)
      (⟨v.oid, SnmpValue.Null⟩ :: r.1, r.2)

def handle_get_request (mib : List (List Nat × SnmpValue)) (request : SnmpMessage) :
    Option (List Nat) :=
  let r := getLoop mib request.pdu.varbinds 0 0 0
  build_response_message request r.1 r.2.1 r.2.2

/-- Comparison of oid keys, following the Ord instance of Rust vectors:
lexicographic with a proper prefix smaller than its extension. -/
def oidCmp : List Nat → List Nat → Ordering
  | [], [] => .eq
  | [], _ :: _ => .lt
  | _ :: _, [] => .gt
  | a :: as1, b :: bs1 =>
    if a < b then .lt else if b < a then .gt else oidCmp as1 bs1

/-- The min by fold of handle get next request: keeps the current minimum and
replaces it only by a strictly smaller key, so the first minimum wins. -/
def minKeyAux : List Nat → List (List Nat) → List Nat
  | m, [] => m
  | m, k :: ks => minKeyAux (if oidCmp k m = .lt then k else m) ks

/-- mib.keys().filter(k > requested).min by(cmp) of handle get next request. -/
def findNext (mib : List (List Nat × SnmpValue)) (r : List Nat) :
    Option (List Nat) :=
  match (mib.map Prod.fst).filter (fun k => decide (oidCmp k r = .gt)) with
  | [] => none
  | k :: ks => some (minKeyAux k ks)

/-- The per varbind loop of handle get next request. When a next key exists
its looked up value is appended (the lookup cannot fail, but the source
guards it, so the model does too); when none exists the original oid is
echoed with Null and error status 2, error index i + 1 are set. -/
def getNextLoop (mib : List (List Nat × SnmpValue)) :
    List Varbind → Nat → Int → Int → List Varbind × Int × Int
  | [], _, es, ei => ([], es, ei)
  | v :: rest, i, es, ei =>
    match findNext mib v.oid with
    | some k =>
      match mibGet mib k with
      | some value =>
        let r := getNextLoop mib rest (i + 1) es ei
        (⟨k, value⟩ :: r.1, r.2)
      | none => getNextLoop mib rest (i + 1) es ei
    | none =>
      let r := getNextLoop mib rest (i + 1) 2 ((i : Int) + 1)
      (⟨v.oid, SnmpValue.Null⟩ :: r.1, r.2)

def handle_get_next_request (mib : List (List Nat × SnmpValue))
    (request : SnmpMessage) : Option (List Nat) :=
  let r := getNextLoop mib request.pdu.varbinds 0 0 0
  build_response_message request r.1 r.2.1 r.2.2

/-- The per varbind loop of handle set request: insert every binding and echo
the input varbinds; error status and error index stay 0. -/
def setLoop (mib : List (List Nat × SnmpValue)) :
    List Varbind → List (List Nat × SnmpValue)
  | [] => mib
  | v :: rest => setLoop (mibInsert mib v.oid v.value) rest

def handle_set_request (mib : List (List Nat × SnmpValue)) (request : SnmpMessage) :
    List (List Nat × SnmpValue) × Option (List Nat) :=
  (setLoop mib request.pdu.varbinds,
   build_response_message request request.pdu.varbinds 0 0)

-- Client from src/client.rs.

/-- The destination address of SnmpClient get: format!("{}:16100", target),
the fixed port 16100 appended to the caller supplied target host. -/
def clientTargetAddr (target : String) : String := target ++ ":16100"

/-- The request bytes composed by SnmpClient get: varbind list from the oids,
a GetRequest PDU with error status and error index 0, then the message with
the given community. -/
def clientGetRequestBytes (requestId : Int) (community : List Nat)
    (oids : List (List Nat)) : Option (List Nat) :=
  match build_varbind_list oids with
  | none => none
  | some vbl =>
    some (build_snmp_msg community (build_pdu requestId 0 0 vbl PduType.GET_REQUEST))

-- Claim theorems. Concrete evaluations are settled by decide over the
-- executable embedding.

instance {ε α : Type _} [DecidableEq ε] [DecidableEq α] : DecidableEq (Except ε α) :=
  fun x y =>
    match x, y with
    | .error a, .error b =>
      if h : a = b then .isTrue (by rw [h]) else .isFalse (fun hc => by cases hc; exact h rfl)
    | .error _, .ok _ => .isFalse (fun hc => by cases hc)
    | .ok _, .error _ => .isFalse (fun hc => by cases hc)
    | .ok a, .ok b =>
      if h : a = b then .isTrue (by rw [h]) else .isFalse (fun hc => by cases hc; exact h rfl)

/-- C1: the claim says the codec emits 0x30 as the SEQUENCE tag and accepts
0x30 on decode. The code instead defines SEQUENCE TAG as 0x33: every encoded
SEQUENCE container starts with byte 0x33, and decode sequence rejects a
buffer whose container tag is the canonical 0x30 while accepting 0x33. -/
theorem c1_sequence_tag_bug :
    SEQUENCE_TAG = 0x33 ∧
    encode_sequence [] SEQUENCE_TAG = [0x33, 0x00] ∧
    decode_sequence [0x30, 0x00] = .error .fail ∧
    decode_sequence [0x33, 0x00] = .ok ([], []) := by
  decide

/-- C4: the claim says the one byte short form is used exactly when the length
is at most 127 and all of 0, 1, 127, 128, 255, 256, 65535, 65536 round-trip.
The code boundary is len ≤ 128, so 128 is emitted as the single byte 0x80,
which the decoder parses as a long form announcing zero subsequent bytes and
returns 0: the size 128 does not round-trip. The neighbours 127 and 129 do,
and the decoder does reject a long form with more than 4 subsequent bytes. -/
theorem c4_length_boundary_bug :
    encode_length 128 = [0x80] ∧
    decode_length (encode_length 128) = .ok (0, []) ∧
    decode_length (encode_length 128) ≠ .ok (128, []) ∧
    decode_length (encode_length 127) = .ok (127, []) ∧
    decode_length (encode_length 129) = .ok (129, []) ∧
    decode_length (encode_length 65536) = .ok (65536, []) ∧
    decode_length [0x85, 1, 1, 1, 1, 1] = .error .fail := by
  decide

/-- C3: the claim says decoding the encoding of a valid OID returns it even
when a component at position three or later needs several base 128 bytes or
when the first component is 2 with second component above 39, because the
length prefix equals the byte count of the encoded sub-identifier stream.
The code emits oid.len() - 1 as the prefix instead. For 1.3.200 the stream is
the 3 bytes 2B 81 48 but the prefix says 2, so the decoder truncates the
stream mid-component and crashes; with the correct prefix 3 the same stream
decodes fine. For 2.100.5 the head byte 180 is re-split as 180 / 40 = 4 and
180 mod 40 = 20, so the round-trip returns 4.20.5. -/
theorem c3_oid_length_prefix_bug :
    encode_oid [1, 3, 200] = some [0x06, 0x02, 0x2B, 0x81, 0x48] ∧
    decode_oid [0x06, 0x02, 0x2B, 0x81, 0x48] = .error .crash ∧
    decode_oid [0x06, 0x03, 0x2B, 0x81, 0x48] = .ok ([1, 3, 200], []) ∧
    encode_oid [2, 100, 5] = some [0x06, 0x02, 0xB4, 0x05] ∧
    decode_oid [0x06, 0x02, 0xB4, 0x05] = .ok ([4, 20, 5], []) := by
  decide

/-- C9: encode oid on the empty OID computes the length prefix as
oid.len() - 1, an underflowing usize subtraction, hence a panic (none in the
embedding); on a one component OID the subtraction yields 0 and the emitted
bytes are the tag with a zero length and an empty body, which decode oid then
rejects as an empty OBJECT IDENTIFIER. -/
theorem c9_encode_oid_empty_panics :
    encode_oid [] = none ∧
    (∀ a : Nat, encode_oid [a] = some [0x06, 0x00]) ∧
    decode_oid [0x06, 0x00] = .error .fail := by
  refine ⟨rfl, fun a => rfl, by decide⟩

/-- C10: decode integer reads the first content byte unconditionally. On an
INTEGER with declared length 0 and no further input the read panics (crash);
with further input it consumes one byte beyond the declared content and
returns its value. -/
theorem c10_decode_integer_zero_length :
    decode_integer [0x02, 0x00] = .error .crash ∧
    decode_integer [0x02, 0x00, 0x05] = .ok (5, []) := by
  decide

/-- C8 counterexample: the claim says the destination port is supplied by the
caller inside the target argument and no port is hard-coded, but the client
formats the destination as target followed by the fixed string :16100 - a
target carrying no port still yields destination port 16100. -/
theorem c8_hardcoded_port_counterexample :
    clientTargetAddr "192.0.2.7" = "192.0.2.7:16100" ∧
    clientTargetAddr "" = ":16100" := by
  exact ⟨rfl, rfl⟩

/-- C8 amended: the client sends every get request to the fixed port 16100
appended to the caller supplied target host. -/
theorem c8_amended_fixed_port :
    ∀ target : String, clientTargetAddr target = target ++ ":16100" :=
  fun _ => rfl

-- C2: the GetRequest handler error fields.

/-- Index of the last varbind whose oid misses the store (the source loop
overwrites error index on every miss, so the last miss wins). -/
def lastMissIdx (mib : List (List Nat × SnmpValue)) : List Varbind → Option Nat
  | [] => none
  | v :: rest =>
    match lastMissIdx mib rest with
    | some j => some (j + 1)
    | none =>
      match mibGet mib v.oid with
      | none => some 0
      | some _ => none

theorem getLoop_fst (mib : List (List Nat × SnmpValue)) (vbs : List Varbind) :
    ∀ i es ei, (getLoop mib vbs i es ei).1 = vbs.map (fun v =>
      match mibGet mib v.oid with
      | some val => ⟨v.oid, val⟩
      | none => ⟨v.oid, SnmpValue.Null⟩) := by
  induction vbs with
  | nil => intro i es ei; rfl
  | cons v rest ih =>
    intro i es ei
    simp only [getLoop, List.map_cons]
    cases h : mibGet mib v.oid with
    | some val => simp [h, ih]
    | none => simp [h, ih]

theorem getLoop_err (mib : List (List Nat × SnmpValue)) (vbs : List Varbind) :
    ∀ i es ei, (getLoop mib vbs i es ei).2 =
      match lastMissIdx mib vbs with
      | some j => (2, (i : Int) + j + 1)
      | none => (es, ei) := by
  induction vbs with
  | nil => intro i es ei; rfl
  | cons v rest ih =>
    intro i es ei
    simp only [getLoop, lastMissIdx]
    cases h : mibGet mib v.oid with
    | some val =>
      simp only [h]
      rw [ih]
      cases hr : lastMissIdx mib rest with
      | some j => push_cast; ring_nf
      | none => rfl
    | none =>
      simp only [h]
      rw [ih]
      cases hr : lastMissIdx mib rest with
      | some j => push_cast; ring_nf
      | none => push_cast; ring_nf

theorem lastMissIdx_none_iff (mib : List (List Nat × SnmpValue)) (vbs : List Varbind) :
    lastMissIdx mib vbs = none ↔ ∀ v ∈ vbs, mibGet mib v.oid ≠ none := by
  induction vbs with
  | nil => simp [lastMissIdx]
  | cons v rest ih =>
    cases hr : lastMissIdx mib rest with
    | some j =>
      have hrest : ¬ ∀ w ∈ rest, mibGet mib w.oid ≠ none := by
        intro hall
        rw [ih.mpr hall] at hr
        cases hr
      simp only [lastMissIdx, hr]
      constructor
      · intro h; cases h
      · intro h
        exact absurd (fun w hw => h w (List.mem_cons_of_mem _ hw)) hrest
    | none =>
      cases hv : mibGet mib v.oid with
      | none =>
        simp only [lastMissIdx, hr, hv]
        constructor
        · intro h; cases h
        · intro h; exact absurd hv (h v (List.mem_cons_self _ _))
      | some val =>
        simp only [lastMissIdx, hr, hv]
        constructor
        · intro _ w hw
          rcases List.mem_cons.mp hw with h1 | h2
          · subst h1; rw [hv]; exact fun hc => by cases hc
          · exact (ih.mp hr) w h2
        · intro _; trivial

theorem lastMissIdx_spec (mib : List (List Nat × SnmpValue)) (vbs : List Varbind)
    (j : Nat) (hj : j < vbs.length)
    (hmiss : mibGet mib (vbs.get ⟨j, hj⟩).oid = none)
    (hafter : ∀ k (hk : k < vbs.length), j < k →
      mibGet mib (vbs.get ⟨k, hk⟩).oid ≠ none) :
    lastMissIdx mib vbs = some j := by
  induction vbs generalizing j with
  | nil => cases hj
  | cons v rest ih =>
    cases j with
    | zero =>
      have hrest : lastMissIdx mib rest = none := by
        rw [lastMissIdx_none_iff]
        intro w hw
        rcases List.mem_iff_get.mp hw with ⟨⟨k, hk⟩, hkw⟩
        have hk1 : k + 1 < (v :: rest).length := by
          simpa using Nat.succ_lt_succ hk
        have h2 := hafter (k + 1) hk1 (Nat.succ_pos k)
        have hge : (v :: rest).get ⟨k + 1, hk1⟩ = rest.get ⟨k, hk⟩ := rfl
        rw [hge, hkw] at h2
        exact h2
      have hv : mibGet mib v.oid = none := hmiss
      simp only [lastMissIdx, hrest, hv]
    | succ j1 =>
      have hj1 : j1 < rest.length := by simpa using hj
      have hrest : lastMissIdx mib rest = some j1 := by
        refine ih j1 hj1 ?_ ?_
        · exact hmiss
        · intro k hk hlt
          have hk1 : k + 1 < (v :: rest).length := by
            simpa using Nat.succ_lt_succ hk
          have h2 := hafter (k + 1) hk1 (Nat.succ_lt_succ hlt)
          exact h2
      simp [lastMissIdx, hrest]

/-- C2 counterexample: with two requested oids both absent from the store the
claim says error index keeps the value 1 set by the first miss, but the
source sets error index to i + 1 on every miss, so the second miss overwrites
it with 2. -/
theorem c2_first_miss_counterexample :
    (getLoop [] [⟨[1, 1], .Null⟩, ⟨[1, 2], .Null⟩] 0 0 0).2.2 = 2 ∧
    (getLoop [] [⟨[1, 1], .Null⟩, ⟨[1, 2], .Null⟩] 0 0 0).2.2 ≠ 1 := by
  decide

/-- C2 amended: in the GetRequest handler every miss appends a Null varbind
and sets error status 2, and error index ends as the 1-based position of the
last missing varbind (each miss overwrites the fields, so the last one wins);
hits echo the stored value, in request order. -/
theorem c2_amended_last_miss (mib : List (List Nat × SnmpValue))
    (vbs : List Varbind) (j : Nat) (hj : j < vbs.length)
    (hmiss : mibGet mib (vbs.get ⟨j, hj⟩).oid = none)
    (hafter : ∀ k (hk : k < vbs.length), j < k →
      mibGet mib (vbs.get ⟨k, hk⟩).oid ≠ none) :
    (getLoop mib vbs 0 0 0).2.1 = 2 ∧
    (getLoop mib vbs 0 0 0).2.2 = (j : Int) + 1 ∧
    (getLoop mib vbs 0 0 0).1 = vbs.map (fun v =>
      match mibGet mib v.oid with
      | some val => ⟨v.oid, val⟩
      | none => ⟨v.oid, SnmpValue.Null⟩) := by
  have herr := getLoop_err mib vbs 0 0 0
  rw [lastMissIdx_spec mib vbs j hj hmiss hafter] at herr
  refine ⟨?_, ?_, getLoop_fst mib vbs 0 0 0⟩
  · rw [show (getLoop mib vbs 0 0 0).2.1 = ((getLoop mib vbs 0 0 0).2).1 from rfl, herr]
  · rw [show (getLoop mib vbs 0 0 0).2.2 = ((getLoop mib vbs 0 0 0).2).2 from rfl, herr]
    push_cast
    ring

/-- Witness for the amended C2 theorem at a concrete store and request with
misses at positions 2 and 3: error status 2 and error index 3. -/
theorem c2_amended_last_miss_witness :
    (getLoop [([1, 3], SnmpValue.Integer 1)]
      [⟨[1, 3], .Null⟩, ⟨[2], .Null⟩, ⟨[4], .Null⟩] 0 0 0).2.1 = 2 ∧
    (getLoop [([1, 3], SnmpValue.Integer 1)]
      [⟨[1, 3], .Null⟩, ⟨[2], .Null⟩, ⟨[4], .Null⟩] 0 0 0).2.2 = 3 := by
  have h := c2_amended_last_miss [([1, 3], SnmpValue.Integer 1)]
    [⟨[1, 3], .Null⟩, ⟨[2], .Null⟩, ⟨[4], .Null⟩] 2
    (by decide) (by decide) (by decide)
  refine ⟨h.1, ?_⟩
  rw [h.2.1]
  norm_num

-- C5: GetNext returns the least stored key above the requested oid.

theorem oidCmp_eq_iff (a b : List Nat) : oidCmp a b = .eq ↔ a = b := by
  induction a generalizing b with
  | nil => cases b <;> simp [oidCmp]
  | cons x xs ih =>
    cases b with
    | nil => simp [oidCmp]
    | cons y ys =>
      simp only [oidCmp]
      rcases Nat.lt_trichotomy x y with h | h | h
      · rw [if_pos h]
        simp only [List.cons.injEq]
        constructor
        · intro hc; cases hc
        · rintro ⟨h1, _⟩; omega
      · subst h
        rw [if_neg (lt_irrefl x), if_neg (lt_irrefl x)]
        rw [ih]
        simp
      · rw [if_neg (by omega), if_pos h]
        simp only [List.cons.injEq]
        constructor
        · intro hc; cases hc
        · rintro ⟨h1, _⟩; omega

theorem oidCmp_swap (a b : List Nat) : oidCmp b a = (oidCmp a b).swap := by
  induction a generalizing b with
  | nil => cases b <;> simp [oidCmp, Ordering.swap]
  | cons x xs ih =>
    cases b with
    | nil => simp [oidCmp, Ordering.swap]
    | cons y ys =>
      simp only [oidCmp]
      rcases Nat.lt_trichotomy x y with h | h | h
      · rw [if_neg (by omega), if_pos h, if_pos h]; rfl
      · subst h
        rw [if_neg (lt_irrefl x), if_neg (lt_irrefl x), if_neg (lt_irrefl x),
          if_neg (lt_irrefl x)]
        exact ih ys
      · rw [if_pos h, if_neg (by omega), if_pos h]; rfl

theorem oidCmp_lt_trans {a b c : List Nat} (h1 : oidCmp a b = .lt)
    (h2 : oidCmp b c = .lt) : oidCmp a c = .lt := by
  induction a generalizing b c with
  | nil =>
    cases c with
    | nil =>
      cases b with
      | nil => simp [oidCmp] at h1
      | cons y ys => simp [oidCmp] at h2
    | cons z zs => simp [oidCmp]
  | cons x xs ih =>
    cases b with
    | nil => simp [oidCmp] at h1
    | cons y ys =>
      cases c with
      | nil => simp [oidCmp] at h2
      | cons z zs =>
        simp only [oidCmp] at h1 h2 ⊢
        by_cases hxy : x < y
        · by_cases hyz : y < z
          · rw [if_pos (by omega)]
          · rw [if_neg hyz] at h2
            by_cases hzy : z < y
            · rw [if_pos hzy] at h2; cases h2
            · have hyz2 : y = z := by omega
              subst hyz2
              rw [if_pos hxy]
        · rw [if_neg hxy] at h1
          by_cases hyx : y < x
          · rw [if_pos hyx] at h1; cases h1
          · have hxy2 : x = y := by omega
            subst hxy2
            rw [if_neg (lt_irrefl x)] at h1
            by_cases hxz : x < z
            · rw [if_pos hxz]
            · rw [if_neg hxz] at h2 ⊢
              by_cases hzx : z < x
              · rw [if_pos hzx] at h2; cases h2
              · rw [if_neg hzx] at h2 ⊢
                exact ih h1 h2

theorem oidCmpLe_trans {a b c : List Nat} (h1 : a = b ∨ oidCmp a b = .lt)
    (h2 : b = c ∨ oidCmp b c = .lt) : a = c ∨ oidCmp a c = .lt := by
  rcases h1 with rfl | h1
  · exact h2
  · rcases h2 with rfl | h2
    · right; exact h1
    · right; exact oidCmp_lt_trans h1 h2

theorem minKeyAux_mem (m : List Nat) (ks : List (List Nat)) :
    minKeyAux m ks = m ∨ minKeyAux m ks ∈ ks := by
  induction ks generalizing m with
  | nil => left; rfl
  | cons k ks ih =>
    simp only [minKeyAux]
    rcases ih (if oidCmp k m = .lt then k else m) with h | h
    · rw [h]
      split
      · right; exact List.mem_cons_self _ _
      · left; rfl
    · right; exact List.mem_cons_of_mem _ h

theorem minKeyAux_le (m : List Nat) (ks : List (List Nat)) :
    ∀ x, (x = m ∨ x ∈ ks) →
      minKeyAux m ks = x ∨ oidCmp (minKeyAux m ks) x = .lt := by
  induction ks generalizing m with
  | nil =>
    intro x hx
    rcases hx with h | h
    · left; rw [h]; rfl
    · cases h
  | cons k ks ih =>
    intro x hx
    have hm2m : (if oidCmp k m = .lt then k else m) = m ∨
        oidCmp (if oidCmp k m = .lt then k else m) m = .lt := by
      split
      · right; assumption
      · left; rfl
    have hm2k : (if oidCmp k m = .lt then k else m) = k ∨
        oidCmp (if oidCmp k m = .lt then k else m) k = .lt := by
      split
      · left; rfl
      · rename_i hnl
        cases hc : oidCmp k m with
        | lt => exact absurd hc hnl
        | eq => left; exact ((oidCmp_eq_iff k m).mp hc).symm
        | gt =>
          right
          have hs := oidCmp_swap k m
          rw [hc] at hs
          exact hs
    rcases hx with h | h
    · subst h
      exact oidCmpLe_trans (ih _ _ (Or.inl rfl)) hm2m
    · rcases List.mem_cons.mp h with h1 | h2
      · subst h1
        exact oidCmpLe_trans (ih _ _ (Or.inl rfl)) hm2k
      · exact ih _ _ (Or.inr h2)

theorem mibGet_isSome_of_mem (mib : List (List Nat × SnmpValue)) (k : List Nat)
    (h : k ∈ mib.map Prod.fst) : ∃ v, mibGet mib k = some v := by
  induction mib with
  | nil => simp at h
  | cons p rest ih =>
    obtain ⟨k0, v0⟩ := p
    by_cases he : k0 = k
    · exact ⟨v0, by simp [mibGet, he]⟩
    · simp only [List.map_cons, List.mem_cons] at h
      rcases h with h | h
      · exact absurd h.symm he
      · obtain ⟨v, hv⟩ := ih h
        exact ⟨v, by simp [mibGet, he, hv]⟩

theorem findNext_spec (mib : List (List Nat × SnmpValue)) (r K : List Nat)
    (h : findNext mib r = some K) :
    K ∈ mib.map Prod.fst ∧ oidCmp K r = .gt ∧
    (∀ k2 ∈ mib.map Prod.fst, oidCmp k2 r = .gt → (K = k2 ∨ oidCmp K k2 = .lt)) := by
  unfold findNext at h
  cases hf : (mib.map Prod.fst).filter (fun k => decide (oidCmp k r = .gt)) with
  | nil => rw [hf] at h; cases h
  | cons k ks =>
    rw [hf] at h
    injection h with h
    subst h
    have hmem : minKeyAux k ks ∈ k :: ks := by
      rcases minKeyAux_mem k ks with h | h
      · rw [h]; exact List.mem_cons_self _ _
      · exact List.mem_cons_of_mem _ h
    have hmemf : minKeyAux k ks ∈
        (mib.map Prod.fst).filter (fun k => decide (oidCmp k r = .gt)) := by
      rw [hf]; exact hmem
    have hmf := List.mem_filter.mp hmemf
    refine ⟨hmf.1, by simpa using hmf.2, ?_⟩
    intro k2 hk2 hgt
    have hk2f : k2 ∈ (mib.map Prod.fst).filter (fun k => decide (oidCmp k r = .gt)) :=
      List.mem_filter.mpr ⟨hk2, by simpa using hgt⟩
    rw [hf] at hk2f
    exact minKeyAux_le k ks k2 (List.mem_cons.mp hk2f)

theorem findNext_none_iff (mib : List (List Nat × SnmpValue)) (r : List Nat) :
    findNext mib r = none ↔ ∀ k ∈ mib.map Prod.fst, oidCmp k r ≠ .gt := by
  unfold findNext
  constructor
  · intro h k hk hgt
    cases hf : (mib.map Prod.fst).filter (fun k => decide (oidCmp k r = .gt)) with
    | nil =>
      have := List.filter_eq_nil_iff.mp hf k hk
      simp [hgt] at this
    | cons a as => rw [hf] at h; cases h
  · intro h
    have hfe : (mib.map Prod.fst).filter (fun k => decide (oidCmp k r = .gt)) = [] :=
      List.filter_eq_nil_iff.mpr (fun a ha => by simpa using h a ha)
    rw [hfe]

theorem findNext_min_of_below (mib : List (List Nat × SnmpValue)) (r : List Nat)
    (hne : mib ≠ []) (hbelow : ∀ k ∈ mib.map Prod.fst, oidCmp r k = .lt) :
    ∃ K, findNext mib r = some K ∧ K ∈ mib.map Prod.fst ∧
      ∀ k2 ∈ mib.map Prod.fst, K = k2 ∨ oidCmp K k2 = .lt := by
  have hfe : (mib.map Prod.fst).filter (fun k => decide (oidCmp k r = .gt)) =
      mib.map Prod.fst := by
    apply List.filter_eq_self.mpr
    intro k hk
    have hs := oidCmp_swap r k
    rw [hbelow k hk] at hs
    have hgt : oidCmp k r = .gt := by rw [hs]; rfl
    simp [hgt]
  unfold findNext
  rw [hfe]
  cases hm : mib.map Prod.fst with
  | nil => exact absurd (List.map_eq_nil_iff.mp hm) hne
  | cons k ks =>
    refine ⟨minKeyAux k ks, rfl, ?_, ?_⟩
    · rcases minKeyAux_mem k ks with h | h
      · rw [h]; exact List.mem_cons_self _ _
      · exact List.mem_cons_of_mem _ h
    · intro k2 hk2
      exact minKeyAux_le k ks k2 (List.mem_cons.mp hk2)

theorem getNextLoop_fst (mib : List (List Nat × SnmpValue)) (vbs : List Varbind) :
    ∀ i es ei, (getNextLoop mib vbs i es ei).1 = vbs.map (fun v =>
      match findNext mib v.oid with
      | some k => ⟨k, (mibGet mib k).getD SnmpValue.Null⟩
      | none => ⟨v.oid, SnmpValue.Null⟩) := by
  induction vbs with
  | nil => intro i es ei; rfl
  | cons v rest ih =>
    intro i es ei
    simp only [getNextLoop, List.map_cons]
    cases hf : findNext mib v.oid with
    | some k =>
      obtain ⟨val, hval⟩ := mibGet_isSome_of_mem mib k (findNext_spec mib v.oid k hf).1
      simp [hf, hval, ih]
    | none => simp [hf, ih]

theorem getNextLoop_es_stays_two (mib : List (List Nat × SnmpValue))
    (vbs : List Varbind) : ∀ i ei, (getNextLoop mib vbs i 2 ei).2.1 = 2 := by
  induction vbs with
  | nil => intro i ei; rfl
  | cons v rest ih =>
    intro i ei
    simp only [getNextLoop]
    cases hf : findNext mib v.oid with
    | some k =>
      cases hval : mibGet mib k with
      | some val => simp only [hval]; exact ih (i + 1) ei
      | none => simp only [hval]; exact ih (i + 1) ei
    | none => exact ih (i + 1) ((i : Int) + 1)

theorem getNextLoop_es_of_miss (mib : List (List Nat × SnmpValue))
    (vbs : List Varbind) (h : ∃ v ∈ vbs, findNext mib v.oid = none) :
    ∀ i es ei, (getNextLoop mib vbs i es ei).2.1 = 2 := by
  induction vbs with
  | nil => simp at h
  | cons v rest ih =>
    intro i es ei
    rcases h with ⟨w, hw, hwn⟩
    rcases List.mem_cons.mp hw with h1 | h2
    · subst h1
      simp only [getNextLoop, hwn]
      simpa using getNextLoop_es_stays_two mib rest (i + 1) ((i : Int) + 1)
    · simp only [getNextLoop]
      cases hf : findNext mib v.oid with
      | some k =>
        cases hval : mibGet mib k with
        | some val => simp only [hval]; exact ih ⟨w, h2, hwn⟩ (i + 1) es ei
        | none => simp only [hval]; exact ih ⟨w, h2, hwn⟩ (i + 1) es ei
      | none => exact getNextLoop_es_stays_two mib rest (i + 1) ((i : Int) + 1)

/-- C5: in the GetNext handler each requested oid r is answered, in request
order, by the least stored key strictly above r under the lexicographic
order (oidCmp, the order of Rust vectors) together with its stored value;
in particular when r is below every stored key of a nonempty store the
answer is the minimum stored key, and when no key exceeds r the original
oid is echoed with a Null value and error status is set to 2. -/
theorem c5_get_next_least_successor (mib : List (List Nat × SnmpValue))
    (vbs : List Varbind) :
    ((getNextLoop mib vbs 0 0 0).1 = vbs.map (fun v =>
      match findNext mib v.oid with
      | some k => ⟨k, (mibGet mib k).getD SnmpValue.Null⟩
      | none => ⟨v.oid, SnmpValue.Null⟩)) ∧
    (∀ r K, findNext mib r = some K →
      K ∈ mib.map Prod.fst ∧ oidCmp K r = .gt ∧ (mibGet mib K).isSome ∧
      (∀ k2 ∈ mib.map Prod.fst, oidCmp k2 r = .gt → (K = k2 ∨ oidCmp K k2 = .lt))) ∧
    (∀ r, (∀ k ∈ mib.map Prod.fst, oidCmp k r ≠ .gt) → findNext mib r = none) ∧
    (∀ r, mib ≠ [] → (∀ k ∈ mib.map Prod.fst, oidCmp r k = .lt) →
      ∃ K, findNext mib r = some K ∧ K ∈ mib.map Prod.fst ∧
        ∀ k2 ∈ mib.map Prod.fst, K = k2 ∨ oidCmp K k2 = .lt) ∧
    ((∃ v ∈ vbs, findNext mib v.oid = none) →
      (getNextLoop mib vbs 0 0 0).2.1 = 2) := by
  refine ⟨getNextLoop_fst mib vbs 0 0 0, ?_, ?_, ?_, ?_⟩
  · intro r K h
    obtain ⟨hmem, hgt, hmin⟩ := findNext_spec mib r K h
    obtain ⟨val, hval⟩ := mibGet_isSome_of_mem mib K hmem
    exact ⟨hmem, hgt, by simp [hval], hmin⟩
  · intro r h
    exact (findNext_none_iff mib r).mpr h
  · intro r hne hbelow
    exact findNext_min_of_below mib r hne hbelow
  · intro h
    exact getNextLoop_es_of_miss mib vbs h 0 0 0

/-- Witness for C5 at a concrete store with keys 1.3 and 1.3.5: a GetNext on
1.3 answers 1.3.5 with its value, a GetNext on 1.3.5 echoes Null and sets
error status 2, and a GetNext below the minimum key returns the minimum. -/
theorem c5_get_next_least_successor_witness :
    (getNextLoop [([1, 3], SnmpValue.Integer 1), ([1, 3, 5], SnmpValue.Integer 2)]
      [⟨[1, 3], .Null⟩] 0 0 0).1 = [⟨[1, 3, 5], SnmpValue.Integer 2⟩] ∧
    (getNextLoop [([1, 3], SnmpValue.Integer 1), ([1, 3, 5], SnmpValue.Integer 2)]
      [⟨[1, 3, 5], .Null⟩] 0 0 0).2.1 = 2 ∧
    (∃ K, findNext [([1, 3], SnmpValue.Integer 1), ([1, 3, 5], SnmpValue.Integer 2)]
      [1, 1] = some K ∧
      K ∈ [[1, 3], [1, 3, 5]] ∧
      ∀ k2 ∈ [[1, 3], [1, 3, 5]], K = k2 ∨ oidCmp K k2 = .lt) := by
  have h1 := (c5_get_next_least_successor
    [([1, 3], SnmpValue.Integer 1), ([1, 3, 5], SnmpValue.Integer 2)]
    [⟨[1, 3], .Null⟩]).1
  have h2 := (c5_get_next_least_successor
    [([1, 3], SnmpValue.Integer 1), ([1, 3, 5], SnmpValue.Integer 2)]
    [⟨[1, 3, 5], .Null⟩]).2.2.2.2 ⟨⟨[1, 3, 5], .Null⟩, by decide, by decide⟩
  have h3 := (c5_get_next_least_successor
    [([1, 3], SnmpValue.Integer 1), ([1, 3, 5], SnmpValue.Integer 2)]
    ([] : List Varbind)).2.2.2.1 [1, 1] (by decide) (by decide)
  refine ⟨?_, h2, h3⟩
  rw [h1]
  decide

-- C7: INTEGER encoding emits minimal two's-complement bytes and decoding
-- restores the value. Division and remainder on Int are Euclidean (flooring
-- for the positive divisors used here), matching arithmetic shift right.

theorem int_ediv_ediv (a : Int) {m n : Int} (hm : 0 < m) (hn : 0 < n) :
    a / m / n = a / (m * n) := by
  have hmn : 0 < m * n := mul_pos hm hn
  have hq := Int.ediv_add_emod a (m * n)
  have hr0 : 0 ≤ a % (m * n) := Int.emod_nonneg a hmn.ne'
  have hr1 : a % (m * n) < m * n := Int.emod_lt_of_pos a hmn
  have ha : a = a % (m * n) + m * (n * (a / (m * n))) := by linarith [hq, mul_assoc m n (a / (m * n))]
  have h1 : a / m = a % (m * n) / m + n * (a / (m * n)) := by
    conv_lhs => rw [ha]
    exact Int.add_mul_ediv_left _ _ hm.ne'
  have h2 : a % (m * n) / m < n := by
    rw [Int.ediv_lt_iff_lt_mul hm]
    linarith [hr1]
  have h3 : 0 ≤ a % (m * n) / m := Int.ediv_nonneg hr0 hm.le
  rw [h1, Int.add_mul_ediv_left _ _ hn.ne', Int.ediv_eq_zero_of_lt h3 h2, zero_add]

theorem ediv_pow_succ (v : Int) (j : Nat) :
    v / 2 ^ (8 * j) / 256 = v / 2 ^ (8 * (j + 1)) := by
  have h : (2 : Int) ^ (8 * j) * 256 = 2 ^ (8 * (j + 1)) := by
    rw [show (256 : Int) = 2 ^ 8 by norm_num, ← pow_add]
    congr 1
  rw [int_ediv_ediv v (pow_pos (by norm_num) _) (by norm_num : (0:Int) < 256), h]

theorem intLen_pos (v : Int) : 1 ≤ intLen v := by
  rw [intLen.eq_def]
  split <;> omega

theorem intLen_bounds (v : Int) :
    -(128 * 256 ^ (intLen v - 1)) ≤ v ∧ v < 128 * 256 ^ (intLen v - 1) := by
  induction v using intLen.induct with
  | case1 x hcond ih =>
    have hx : intLen x = intLen (x / 256) + 1 := by rw [intLen.eq_def, if_pos hcond]
    have hp := intLen_pos (x / 256)
    obtain ⟨ih1, ih2⟩ := ih
    have hde := Int.ediv_add_emod x 256
    have hm1 : 0 ≤ x % 256 := Int.emod_nonneg x (by norm_num)
    have hm2 : x % 256 < 256 := Int.emod_lt_of_pos x (by norm_num)
    rw [hx]
    have hexp : intLen (x / 256) + 1 - 1 = (intLen (x / 256) - 1) + 1 := by omega
    rw [hexp, pow_succ]
    set P := (256 : Int) ^ (intLen (x / 256) - 1) with hP
    constructor
    · linarith
    · have hstep : x / 256 + 1 ≤ 128 * P := Int.lt_iff_add_one_le.mp ih2
      linarith
  | case2 x hcond =>
    have hx : intLen x = 1 := by rw [intLen.eq_def, if_neg hcond]
    rw [hx]
    push_neg at hcond
    norm_num
    omega

theorem intLen_min (v : Int) : 2 ≤ intLen v →
    v < -(128 * 256 ^ (intLen v - 2)) ∨ 128 * 256 ^ (intLen v - 2) ≤ v := by
  induction v using intLen.induct with
  | case1 x hcond ih =>
    intro _
    have hx : intLen x = intLen (x / 256) + 1 := by rw [intLen.eq_def, if_pos hcond]
    have hp := intLen_pos (x / 256)
    by_cases hl : 2 ≤ intLen (x / 256)
    · have ihh := ih hl
      have hde := Int.ediv_add_emod x 256
      have hm1 : 0 ≤ x % 256 := Int.emod_nonneg x (by norm_num)
      have hm2 : x % 256 < 256 := Int.emod_lt_of_pos x (by norm_num)
      rw [hx]
      have hexp : intLen (x / 256) + 1 - 2 = (intLen (x / 256) - 2) + 1 := by omega
      rw [hexp, pow_succ]
      set P := (256 : Int) ^ (intLen (x / 256) - 2) with hP
      rcases ihh with hneg | hpos
      · left
        have hstep : x / 256 + 1 ≤ -(128 * P) := Int.lt_iff_add_one_le.mp hneg
        linarith
      · right
        linarith
    · have hl1 : intLen (x / 256) = 1 := by omega
      rw [hx, hl1]
      norm_num
      omega
  | case2 x hcond =>
    intro h2
    have hx : intLen x = 1 := by rw [intLen.eq_def, if_neg hcond]
    rw [hx] at h2
    omega

theorem intLen_le_four {v : Int} (h1 : -(2 ^ 31) ≤ v) (h2 : v < 2 ^ 31) :
    intLen v ≤ 4 := by
  by_contra hc
  push_neg at hc
  have hm := intLen_min v (by omega)
  have h3 : (256 : Int) ^ 3 ≤ 256 ^ (intLen v - 2) :=
    pow_le_pow_right₀ (by norm_num) (by omega)
  have h4 := mul_le_mul_of_nonneg_left h3 (by norm_num : (0:Int) ≤ 128)
  norm_num at h4
  rcases hm with h | h <;> linarith

theorem byte_and_128 : ∀ f, f < 256 → (f &&& 128 ≠ 0 ↔ 128 ≤ f) := by
  decide

theorem decode_length_short {n : Nat} (h : n < 128) (rest : List Nat) :
    decode_length (n :: rest) = .ok (n, rest) := by
  simp [decode_length, h]

theorem decode_integer_unfold {len : Nat} (hlen : len < 128) (b2 : List Nat) :
    decode_integer (0x02 :: len :: b2) = decode_integer_body len b2 := by
  show (match decode_length (len :: b2) with
        | .error e => (.error e : Except DErr (Int × List Nat))
        | .ok (p, q) => decode_integer_body p q) = decode_integer_body len b2
  rw [decode_length_short hlen]

theorem decode_integer_body_cons {len : Nat} (first : Nat) (b3 : List Nat)
    (h4 : ¬ 4 < len) (hlen : ¬ (first :: b3).length < len) :
    decode_integer_body len (first :: b3) =
      readIntBytes (len - 1) ((if first &&& 0x80 ≠ 0 then (-1 : Int) else 0) * 256 + first) b3 := by
  rw [decode_integer_body, if_neg h4, if_neg hlen]

theorem readIntBytes_spec (rest : List Nat) (v : Int) (j : Nat) :
    readIntBytes j (v / 2 ^ (8 * j))
      (((List.range j).reverse.map (fun i => ((v / 2 ^ (8 * i)) % 256).toNat)) ++ rest)
      = .ok (v, rest) := by
  induction j with
  | zero =>
    simp only [List.range_zero, List.reverse_nil, List.map_nil, List.nil_append,
      Nat.mul_zero, pow_zero, Int.ediv_one]
    rfl
  | succ j ih =>
    have hlist : ((List.range (j + 1)).reverse.map
        (fun i => ((v / 2 ^ (8 * i)) % 256).toNat)) =
        ((v / 2 ^ (8 * j)) % 256).toNat ::
          ((List.range j).reverse.map (fun i => ((v / 2 ^ (8 * i)) % 256).toNat)) := by
      rw [List.range_succ, List.reverse_append]
      simp
    rw [hlist, List.cons_append]
    have hacc : (v / 2 ^ (8 * (j + 1))) * 256 + ((((v / 2 ^ (8 * j)) % 256).toNat : Nat) : Int)
        = v / 2 ^ (8 * j) := by
      have hcast : ((((v / 2 ^ (8 * j)) % 256).toNat : Nat) : Int) = (v / 2 ^ (8 * j)) % 256 :=
        Int.toNat_of_nonneg (Int.emod_nonneg _ (by norm_num))
      rw [hcast, ← ediv_pow_succ v j]
      have hde := Int.ediv_add_emod (v / 2 ^ (8 * j)) 256
      linarith
    have hstep : readIntBytes (j + 1) (v / 2 ^ (8 * (j + 1)))
        (((v / 2 ^ (8 * j)) % 256).toNat ::
          (((List.range j).reverse.map (fun i => ((v / 2 ^ (8 * i)) % 256).toNat)) ++ rest)) =
        readIntBytes j ((v / 2 ^ (8 * (j + 1))) * 256 + ((v / 2 ^ (8 * j)) % 256).toNat)
          (((List.range j).reverse.map (fun i => ((v / 2 ^ (8 * i)) % 256).toNat)) ++ rest) := rfl
    rw [hstep, hacc]
    exact ih

theorem decode_encode_integer (v : Int) (h1 : -(2 ^ 31) ≤ v) (h2 : v < 2 ^ 31)
    (rest : List Nat) :
    decode_integer (encode_integer v ++ rest) = .ok (v, rest) := by
  have hp := intLen_pos v
  have h4 := intLen_le_four h1 h2
  have hb := intLen_bounds v
  obtain ⟨k, hk⟩ : ∃ k, intLen v = k + 1 := ⟨intLen v - 1, by omega⟩
  have hel : encode_length (intLen v) = [intLen v] := by
    rw [encode_length, if_pos (by omega)]
  -- the top byte and its signed value
  have hpow : (128 : Int) * 256 ^ k = 128 * 2 ^ (8 * k) := by
    congr 1
    rw [show (256 : Int) = 2 ^ 8 by norm_num, ← pow_mul]
  have hb1 : -(128 * 2 ^ (8 * k)) ≤ v := by
    have := hb.1
    rw [hk] at this
    simp only [Nat.add_sub_cancel] at this
    linarith [hpow]
  have hb2 : v < 128 * 2 ^ (8 * k) := by
    have := hb.2
    rw [hk] at this
    simp only [Nat.add_sub_cancel] at this
    linarith [hpow]
  have ht1 : -128 ≤ v / 2 ^ (8 * k) := by
    rw [Int.le_ediv_iff_mul_le (pow_pos (by norm_num) _)]
    linarith
  have ht2 : v / 2 ^ (8 * k) < 128 := by
    rw [Int.ediv_lt_iff_lt_mul (pow_pos (by norm_num) _)]
    linarith
  have hmod : (v / 2 ^ (8 * k)) % 256 =
      if v / 2 ^ (8 * k) < 0 then v / 2 ^ (8 * k) + 256 else v / 2 ^ (8 * k) := by
    split <;> omega
  have hf256 : ((v / 2 ^ (8 * k)) % 256).toNat < 256 := by omega
  -- buffer shape
  have hbytes : (List.range (intLen v)).reverse.map
      (fun i => ((v / 2 ^ (8 * i)) % 256).toNat) =
      ((v / 2 ^ (8 * k)) % 256).toNat ::
        ((List.range k).reverse.map (fun i => ((v / 2 ^ (8 * i)) % 256).toNat)) := by
    rw [hk, List.range_succ, List.reverse_append]
    simp
  have hlenbytes : ((List.range k).reverse.map
      (fun i => ((v / 2 ^ (8 * i)) % 256).toNat)).length = k := by
    simp
  have hbuf : encode_integer v ++ rest = 2 :: intLen v ::
      (((v / 2 ^ (8 * k)) % 256).toNat ::
        ((List.range k).reverse.map (fun i => ((v / 2 ^ (8 * i)) % 256).toNat)) ++ rest) := by
    rw [encode_integer, hel, hbytes]
    rfl
  rw [hbuf]
  -- step through the decoder
  rw [decode_integer_unfold (by omega)]
  rw [show ((v / 2 ^ (8 * k)) % 256).toNat ::
        ((List.range k).reverse.map (fun i => ((v / 2 ^ (8 * i)) % 256).toNat)) ++ rest =
      ((v / 2 ^ (8 * k)) % 256).toNat ::
        (((List.range k).reverse.map (fun i => ((v / 2 ^ (8 * i)) % 256).toNat)) ++ rest)
    from rfl]
  rw [decode_integer_body_cons _ _ (by omega)
    (by simp only [List.length_cons, List.length_append, hlenbytes]; omega)]
  -- the sign seed
  have hv0 : (if ((v / 2 ^ (8 * k)) % 256).toNat &&& 0x80 ≠ 0 then (-1 : Int) else 0) * 256 +
      (((v / 2 ^ (8 * k)) % 256).toNat : Int) = v / 2 ^ (8 * k) := by
    by_cases hneg : v / 2 ^ (8 * k) < 0
    · have hge : 128 ≤ ((v / 2 ^ (8 * k)) % 256).toNat := by omega
      rw [if_pos ((byte_and_128 _ hf256).mpr hge)]
      have : ((((v / 2 ^ (8 * k)) % 256).toNat : Nat) : Int) = v / 2 ^ (8 * k) + 256 := by omega
      rw [this]
      ring
    · have hlt : ¬ 128 ≤ ((v / 2 ^ (8 * k)) % 256).toNat := by omega
      rw [if_neg (fun hc => hlt ((byte_and_128 _ hf256).mp hc))]
      have : ((((v / 2 ^ (8 * k)) % 256).toNat : Nat) : Int) = v / 2 ^ (8 * k) := by omega
      rw [this]
      ring
  rw [hk]
  simp only [Nat.add_sub_cancel]
  rw [hv0]
  exact readIntBytes_spec rest v k

theorem intLen_0 : intLen 0 = 1 := by
  rw [intLen.eq_def, if_neg (by norm_num)]

theorem intLen_127 : intLen 127 = 1 := by
  rw [intLen.eq_def, if_neg (by norm_num)]

theorem intLen_neg128 : intLen (-128) = 1 := by
  rw [intLen.eq_def, if_neg (by norm_num)]

theorem intLen_128 : intLen 128 = 2 := by
  rw [intLen.eq_def, if_pos (by norm_num),
    show (128 : Int) / 256 = 0 by decide, intLen_0]

theorem intLen_neg129 : intLen (-129) = 2 := by
  rw [intLen.eq_def, if_pos (by norm_num),
    show (-129 : Int) / 256 = -1 by decide]
  rw [intLen.eq_def, if_neg (by norm_num)]

theorem intLen_max : intLen 2147483647 = 4 := by
  rw [intLen.eq_def, if_pos (by norm_num),
    show (2147483647 : Int) / 256 = 8388607 by decide]
  rw [intLen.eq_def, if_pos (by norm_num),
    show (8388607 : Int) / 256 = 32767 by decide]
  rw [intLen.eq_def, if_pos (by norm_num),
    show (32767 : Int) / 256 = 127 by decide, intLen_127]

theorem intLen_min32 : intLen (-2147483648) = 4 := by
  rw [intLen.eq_def, if_pos (by norm_num),
    show (-2147483648 : Int) / 256 = -8388608 by decide]
  rw [intLen.eq_def, if_pos (by norm_num),
    show (-8388608 : Int) / 256 = -32768 by decide]
  rw [intLen.eq_def, if_pos (by norm_num),
    show (-32768 : Int) / 256 = -128 by decide, intLen_neg128]

theorem pow_bound_eq (l : Nat) (hl : 1 ≤ l) :
    (128 : Int) * 256 ^ (l - 1) = 2 ^ (8 * l - 1) := by
  rw [show (256 : Int) = 2 ^ 8 by norm_num, ← pow_mul,
    show (128 : Int) = 2 ^ 7 by norm_num, ← pow_add]
  congr 1
  omega

/-- C7: for every i32 value the encoder emits the minimal number (1 to 4) of
content bytes of the two's-complement big-endian representation, the high bit
of the first content byte reflects the sign, and the decoder sign extends and
returns the original value together with the unread rest of the buffer; the
boundary values 0, 127, 128, -128, -129, i32 MAX and i32 MIN get the minimal
content lengths 1, 1, 2, 1, 2, 4, 4. -/
theorem c7_integer_minimal_roundtrip (v : Int) (h1 : -(2 ^ 31) ≤ v) (h2 : v < 2 ^ 31) :
    (∀ rest, decode_integer (encode_integer v ++ rest) = .ok (v, rest)) ∧
    1 ≤ intLen v ∧ intLen v ≤ 4 ∧
    (encode_integer v).length = 2 + intLen v ∧
    (-(2 ^ (8 * intLen v - 1)) ≤ v ∧ v < 2 ^ (8 * intLen v - 1)) ∧
    (∀ m, 1 ≤ m → m < intLen v →
      ¬(-(2 ^ (8 * m - 1)) ≤ v ∧ v < 2 ^ (8 * m - 1))) ∧
    (128 ≤ ((v / 2 ^ (8 * (intLen v - 1))) % 256).toNat ↔ v < 0) ∧
    intLen 0 = 1 ∧ intLen 127 = 1 ∧ intLen 128 = 2 ∧ intLen (-128) = 1 ∧
    intLen (-129) = 2 ∧ intLen 2147483647 = 4 ∧ intLen (-2147483648) = 4 := by
  have hp := intLen_pos v
  have h4 := intLen_le_four h1 h2
  have hb := intLen_bounds v
  have hfit : -(2 ^ (8 * intLen v - 1)) ≤ v ∧ v < 2 ^ (8 * intLen v - 1) := by
    rw [← pow_bound_eq (intLen v) hp]
    exact hb
  have hlen : (encode_integer v).length = 2 + intLen v := by
    rw [encode_integer, encode_length, if_pos (by omega)]
    simp
    omega
  have hmin : ∀ m, 1 ≤ m → m < intLen v →
      ¬(-(2 ^ (8 * m - 1)) ≤ v ∧ v < 2 ^ (8 * m - 1)) := by
    intro m hm1 hm2 hfm
    have hl2 : 2 ≤ intLen v := by omega
    have hmn := intLen_min v hl2
    have he : intLen v - 1 - 1 = intLen v - 2 := by omega
    have hc := pow_bound_eq (intLen v - 1) (by omega)
    rw [he] at hc
    rw [hc] at hmn
    have hmono : (2 : Int) ^ (8 * m - 1) ≤ 2 ^ (8 * (intLen v - 1) - 1) :=
      pow_le_pow_right₀ (by norm_num) (by omega)
    rcases hmn with h | h
    · linarith [hfm.1]
    · linarith [hfm.2]
  have hsign : 128 ≤ ((v / 2 ^ (8 * (intLen v - 1))) % 256).toNat ↔ v < 0 := by
    have hpow : (128 : Int) * 256 ^ (intLen v - 1) = 128 * 2 ^ (8 * (intLen v - 1)) := by
      congr 1
      rw [show (256 : Int) = 2 ^ 8 by norm_num, ← pow_mul]
    have ht1 : -128 ≤ v / 2 ^ (8 * (intLen v - 1)) := by
      rw [Int.le_ediv_iff_mul_le (pow_pos (by norm_num) _)]
      linarith [hb.1]
    have ht2 : v / 2 ^ (8 * (intLen v - 1)) < 128 := by
      rw [Int.ediv_lt_iff_lt_mul (pow_pos (by norm_num) _)]
      linarith [hb.2]
    have htv : v / 2 ^ (8 * (intLen v - 1)) < 0 ↔ v < 0 := by
      constructor
      · intro ht
        by_contra hv
        push_neg at hv
        exact absurd
          (Int.ediv_nonneg hv
            (pow_pos (by norm_num : (0:Int) < 2) (8 * (intLen v - 1))).le)
          (by omega)
      · intro hv
        by_contra ht
        push_neg at ht
        have hde := Int.ediv_add_emod v (2 ^ (8 * (intLen v - 1)))
        have hm0 : 0 ≤ v % 2 ^ (8 * (intLen v - 1)) :=
          Int.emod_nonneg v (pow_pos (by norm_num : (0:Int) < 2) (8 * (intLen v - 1))).ne'
        have hmt : 0 ≤ (2 : Int) ^ (8 * (intLen v - 1)) * (v / 2 ^ (8 * (intLen v - 1))) :=
          mul_nonneg (pow_pos (by norm_num : (0:Int) < 2) (8 * (intLen v - 1))).le ht
        linarith
    omega
  refine ⟨fun rest => decode_encode_integer v h1 h2 rest, hp, h4, hlen, hfit, hmin, hsign,
    intLen_0, intLen_127, intLen_128, intLen_neg128, intLen_neg129, intLen_max, intLen_min32⟩

/-- Witness for C7 at the concrete value -129: the encoding round-trips and
uses the minimal two content bytes. -/
theorem c7_integer_minimal_roundtrip_witness :
    decode_integer (encode_integer (-129) ++ []) = .ok (-129, []) ∧
    intLen (-129) = 2 := by
  have h := c7_integer_minimal_roundtrip (-129) (by norm_num) (by norm_num)
  exact ⟨h.1 [], h.2.2.2.2.2.2.2.2.2.2.2.1⟩

-- C6: the response message built by the agent decodes back with the same
-- version, community and request id and the GetResponse PDU tag. The round
-- trip lemmas below are conditioned on the short-form length regime (every
-- content length at most 127) and well formed oids and values.

theorem decode_sequence_encode {content : List Nat} (hlen : content.length ≤ 127)
    {tag : Nat} (htag : seqTagOk tag = true) (rest : List Nat) :
    decode_sequence (encode_sequence content tag ++ rest) = .ok (content, rest) := by
  have hel : encode_length content.length = [content.length] := by
    rw [encode_length, if_pos (by omega)]
  have hbuf : encode_sequence content tag ++ rest =
      tag :: content.length :: (content ++ rest) := by
    rw [encode_sequence, hel]
    rfl
  rw [hbuf]
  simp only [decode_sequence, decode_tag]
  rw [if_pos htag]
  simp only [decode_length_short (show content.length < 128 by omega)]
  rw [if_neg (by simp), List.take_left, List.drop_left]

theorem decode_octet_string_encode {s : List Nat} (hlen : s.length ≤ 127)
    (rest : List Nat) :
    decode_octet_string (encode_octet_string s ++ rest) = .ok (s, rest) := by
  have hel : encode_length s.length = [s.length] := by
    rw [encode_length, if_pos (by omega)]
  have hbuf : encode_octet_string s ++ rest = 0x04 :: s.length :: (s ++ rest) := by
    rw [encode_octet_string, hel]
    rfl
  rw [hbuf]
  simp only [decode_octet_string, decode_tag]
  rw [if_pos (show (4 : Nat) = OCTET_STRING_TAG from rfl)]
  simp only [decode_length_short (show s.length < 128 by omega)]
  rw [if_neg (by simp), List.take_left, List.drop_left]

theorem decode_null_encode (rest : List Nat) :
    decode_null (encode_null ++ rest) = .ok ((), rest) := rfl

theorem byte_high_clear : ∀ c, c < 128 → c &&& 128 = 0 := by
  decide

theorem byte_low7 : ∀ c, c < 128 → c &&& 127 = c := by
  decide

theorem subIdBytes_small {c : Nat} (h : c < 128) : subIdBytes c = [c] := by
  rw [subIdBytes, if_pos h]

theorem flat_small {t : List Nat} (ht : ∀ c ∈ t, c < 128) :
    (t.map subIdBytes).flatten = t := by
  induction t with
  | nil => rfl
  | cons c cs ih =>
    simp only [List.map_cons, List.flatten_cons,
      subIdBytes_small (ht c (List.mem_cons_self _ _))]
    rw [ih (fun x hx => ht x (List.mem_cons_of_mem _ hx))]
    rfl

theorem decodeSubIdsAux_small (t : List Nat) : ∀ c, c < 128 →
    (∀ x ∈ t, x < 128) → decodeSubIdsAux (c :: t) 0 = .ok (c :: t) := by
  induction t with
  | nil =>
    intro c hc _
    have hc0 : c &&& 0x80 = 0 := byte_high_clear c hc
    have hc7 : c &&& 0x7F = c := byte_low7 c hc
    show (if c &&& 0x80 = 0 then
          (.ok [0 * 128 % 2 ^ 32 + (c &&& 0x7F)] : Except DErr (List Nat))
        else decodeSubIdsAux [] (0 * 128 % 2 ^ 32 + (c &&& 0x7F))) = .ok [c]
    rw [if_pos hc0]
    simp [hc7]
  | cons d ds ih =>
    intro c hc hall
    have hd : d < 128 := hall d (List.mem_cons_self _ _)
    have hds : ∀ x ∈ ds, x < 128 := fun x hx => hall x (List.mem_cons_of_mem _ hx)
    have hc0 : c &&& 0x80 = 0 := byte_high_clear c hc
    have hc7 : c &&& 0x7F = c := byte_low7 c hc
    show (if c &&& 0x80 = 0 then
          Except.map (fun vs => (0 * 128 % 2 ^ 32 + (c &&& 0x7F)) :: vs)
            (decodeSubIdsAux (d :: ds) 0)
        else decodeSubIdsAux (d :: ds) (0 * 128 % 2 ^ 32 + (c &&& 0x7F)))
        = .ok (c :: d :: ds)
    rw [if_pos hc0, ih d hd hds]
    simp [Except.map, hc7]

theorem decodeSubIds_small {t : List Nat} (ht : ∀ c ∈ t, c < 128) :
    decodeSubIds t = .ok t := by
  cases t with
  | nil => rfl
  | cons c cs =>
    exact decodeSubIdsAux_small cs c (ht c (List.mem_cons_self _ _))
      (fun x hx => ht x (List.mem_cons_of_mem _ hx))

/-- Well formedness of an oid for the encoder: at least two components, first
at most 2, second below 40, later components in a single base 128 byte, and
total length small enough for the short length form. -/
def oidOk : List Nat → Bool
  | a :: b :: t =>
    decide (a ≤ 2) && decide (b < 40) && decide (t.length ≤ 126) &&
      t.all (fun c => decide (c < 128))
  | _ => false

theorem encode_oid_spec {oid : List Nat} (h : oidOk oid = true) :
    ∃ obt, encode_oid oid = some (0x06 :: obt) ∧ obt.length = oid.length ∧
      ∀ rest, decode_oid ((0x06 :: obt) ++ rest) = .ok (oid, rest) := by
  match oid with
  | a :: b :: t =>
    simp only [oidOk, Bool.and_eq_true, decide_eq_true_eq, List.all_eq_true] at h
    obtain ⟨⟨⟨ha, hb⟩, hlen⟩, hsmall⟩ := h
    have hsmall2 : ∀ c ∈ t, c < 128 := fun c hc => by
      have := hsmall c hc
      simpa using this
    have hhead : (40 * a + b) % 256 = 40 * a + b := Nat.mod_eq_of_lt (by omega)
    have hel : encode_length ((a :: b :: t).length - 1) = [t.length + 1] := by
      rw [show (a :: b :: t).length - 1 = t.length + 1 by simp]
      rw [encode_length, if_pos (by omega)]
    have henc : encode_oid (a :: b :: t) =
        some (0x06 :: (t.length + 1) :: (40 * a + b) :: t) := by
      rw [encode_oid]
      simp only [List.drop_succ_cons, List.drop_zero, hhead]
      rw [flat_small hsmall2, hel]
      rfl
    refine ⟨_, henc, by simp, ?_⟩
    intro rest
    have hbuf : (0x06 :: (t.length + 1) :: (40 * a + b) :: t) ++ rest =
        0x06 :: (t.length + 1) :: (((40 * a + b) :: t) ++ rest) := rfl
    rw [hbuf]
    have htake : (((40 * a + b) :: t) ++ rest).take (t.length + 1) = (40 * a + b) :: t := by
      rw [show t.length + 1 = ((40 * a + b) :: t).length by simp]
      exact List.take_left _ _
    have hdrop : (((40 * a + b) :: t) ++ rest).drop (t.length + 1) = rest := by
      rw [show t.length + 1 = ((40 * a + b) :: t).length by simp]
      exact List.drop_left _ _
    have hdiv : (40 * a + b) / 40 = a := by omega
    have hmod : (40 * a + b) % 40 = b := by omega
    simp only [decode_oid, decode_tag]
    rw [if_pos (show (6 : Nat) = OBJECT_IDENTIFIER_TAG from rfl)]
    simp only [decode_length_short (show t.length + 1 < 128 by omega)]
    rw [if_neg (by simp)]
    simp only [htake, hdrop, decodeSubIds_small hsmall2, hdiv, hmod]

/-- Well formedness of a varbind value for the encoder: integers in i32
range, octet strings short enough for the short length form, oids as in
oidOk. -/
def valueOk : SnmpValue → Bool
  | .Integer i => decide (-(2 ^ 31) ≤ i) && decide (i < 2 ^ 31)
  | .OctetString s => decide (s.length ≤ 127)
  | .Null => true
  | .ObjectIdentifier oid => oidOk oid

def varbindOk (v : Varbind) : Bool := oidOk v.oid && valueOk v.value

theorem encodeValue_spec {val : SnmpValue} (h : valueOk val = true) :
    ∃ tg vtail, encodeValue val = some (tg :: vtail) ∧
      ∀ rest, decodeVarbindValue tg ((tg :: vtail) ++ rest) = .ok val := by
  cases val with
  | Integer i =>
    simp only [valueOk, Bool.and_eq_true, decide_eq_true_eq] at h
    obtain ⟨h1, h2⟩ := h
    obtain ⟨tl, htl⟩ : ∃ tl, encode_integer i = INTEGER_TAG :: tl := ⟨_, rfl⟩
    refine ⟨INTEGER_TAG, tl, by rw [encodeValue, htl], ?_⟩
    intro rest
    rw [show (INTEGER_TAG :: tl) ++ rest = encode_integer i ++ rest from by rw [htl]]
    show (match decode_integer (encode_integer i ++ rest) with
          | .error e => (.error e : Except DErr SnmpValue)
          | .ok p => .ok (SnmpValue.Integer p.1)) = .ok (SnmpValue.Integer i)
    rw [decode_encode_integer i h1 h2 rest]
  | OctetString s =>
    simp only [valueOk, decide_eq_true_eq] at h
    obtain ⟨tl, htl⟩ : ∃ tl, encode_octet_string s = OCTET_STRING_TAG :: tl := ⟨_, rfl⟩
    refine ⟨OCTET_STRING_TAG, tl, by rw [encodeValue, htl], ?_⟩
    intro rest
    rw [show (OCTET_STRING_TAG :: tl) ++ rest = encode_octet_string s ++ rest from by
      rw [htl]]
    show (match decode_octet_string (encode_octet_string s ++ rest) with
          | .error e => (.error e : Except DErr SnmpValue)
          | .ok p => .ok (SnmpValue.OctetString p.1)) = .ok (SnmpValue.OctetString s)
    rw [decode_octet_string_encode h rest]
  | Null =>
    refine ⟨NULL_TAG, [0x00], rfl, ?_⟩
    intro rest
    show (match decode_null (encode_null ++ rest) with
          | .error e => (.error e : Except DErr SnmpValue)
          | .ok _ => .ok SnmpValue.Null) = .ok SnmpValue.Null
    rw [decode_null_encode rest]
  | ObjectIdentifier oid =>
    simp only [valueOk] at h
    obtain ⟨obt, hob, _, hdec⟩ := encode_oid_spec h
    refine ⟨OBJECT_IDENTIFIER_TAG, obt, by rw [encodeValue]; exact hob, ?_⟩
    intro rest
    show (match decode_oid ((0x06 :: obt) ++ rest) with
          | .error e => (.error e : Except DErr SnmpValue)
          | .ok p => .ok (SnmpValue.ObjectIdentifier p.1)) =
        .ok (SnmpValue.ObjectIdentifier oid)
    rw [hdec rest]

theorem peek_encode_sequence (c : List Nat) (tag : Nat) (r : List Nat) :
    peek_tag (encode_sequence c tag ++ r) = .ok tag := rfl

theorem respVarbind_spec {v : Varbind} (h : varbindOk v = true)
    (hsz : ∀ c, respVarbindContent v = some c → c.length ≤ 127) :
    ∃ c, respVarbindContent v = some c ∧ c.length ≤ 127 ∧
      build_response_varbind v = some (encode_sequence c SEQUENCE_TAG) ∧
      (encode_sequence c SEQUENCE_TAG).length = c.length + 2 ∧
      ∀ rest, decode_varbind (encode_sequence c SEQUENCE_TAG ++ rest) = .ok (v, rest) := by
  simp only [varbindOk, Bool.and_eq_true] at h
  obtain ⟨hoid, hval⟩ := h
  obtain ⟨obt, hob, holen, hodec⟩ := encode_oid_spec hoid
  obtain ⟨tg, vtail, hvb, hvdec⟩ := encodeValue_spec hval
  have hc : respVarbindContent v = some ((0x06 :: obt) ++ (tg :: vtail)) := by
    rw [respVarbindContent, hob, hvb]
  have hclen := hsz _ hc
  refine ⟨_, hc, hclen, ?_, ?_, ?_⟩
  · rw [build_response_varbind, hc]
    rfl
  · rw [encode_sequence, encode_length, if_pos (by omega)]
    simp
  · intro rest
    simp only [decode_varbind,
      decode_sequence_encode hclen (show seqTagOk SEQUENCE_TAG = true from rfl) rest]
    simp only [hodec (tg :: vtail)]
    simp only [peek_tag]
    have hvd := hvdec []
    rw [List.append_nil] at hvd
    simp only [hvd]

theorem respVbl_spec {vbs : List Varbind}
    (h : ∀ v ∈ vbs, varbindOk v = true)
    (hsz : ∀ v ∈ vbs, ∀ c, respVarbindContent v = some c → c.length ≤ 127) :
    ∃ L, respVblContent vbs = some L ∧
      ∀ fuel, L.length ≤ fuel → decodeVarbindsAux fuel L = .ok vbs := by
  induction vbs with
  | nil => exact ⟨[], rfl, fun fuel _ => by cases fuel <;> rfl⟩
  | cons v vs ih =>
    obtain ⟨c, hc, hclen, hwb, hwlen, hdec⟩ :=
      respVarbind_spec (h v (List.mem_cons_self _ _)) (hsz v (List.mem_cons_self _ _))
    obtain ⟨L, hL, hdecL⟩ := ih (fun w hw => h w (List.mem_cons_of_mem _ hw))
      (fun w hw => hsz w (List.mem_cons_of_mem _ hw))
    refine ⟨encode_sequence c SEQUENCE_TAG ++ L, ?_, ?_⟩
    · rw [respVblContent, hwb, hL]
    · intro fuel hfuel
      rw [List.length_append, hwlen] at hfuel
      obtain ⟨f, hf⟩ : ∃ f, fuel = f + 1 := ⟨fuel - 1, by omega⟩
      subst hf
      have hshape : encode_sequence c SEQUENCE_TAG ++ L =
          SEQUENCE_TAG :: ((encode_length c.length ++ c) ++ L) := rfl
      rw [hshape]
      show (match decode_varbind (SEQUENCE_TAG :: ((encode_length c.length ++ c) ++ L)) with
            | .error e => (.error e : Except DErr (List Varbind))
            | .ok (w, r) =>
              match decodeVarbindsAux f r with
              | .error e => .error e
              | .ok ws => .ok (w :: ws)) = .ok (v :: vs)
      rw [← hshape]
      simp only [hdec L]
      simp only [hdecL f (by omega)]

theorem decode_varbind_list_spec {vbs : List Varbind} {L : List Nat}
    (hlen : L.length ≤ 127)
    (hAux : ∀ fuel, L.length ≤ fuel → decodeVarbindsAux fuel L = .ok vbs)
    (rest : List Nat) :
    decode_varbind_list (encode_sequence L SEQUENCE_TAG ++ rest) = .ok (vbs, rest) := by
  simp only [decode_varbind_list,
    decode_sequence_encode hlen (show seqTagOk SEQUENCE_TAG = true from rfl) rest]
  simp only [hAux L.length le_rfl]

theorem build_response_pdu_spec (pdu : SnmpPdu) (vbs : List Varbind) (es ei : Int)
    (hid1 : -(2 ^ 31) ≤ pdu.request_id) (hid2 : pdu.request_id < 2 ^ 31)
    (hes1 : -(2 ^ 31) ≤ es) (hes2 : es < 2 ^ 31)
    (hei1 : -(2 ^ 31) ≤ ei) (hei2 : ei < 2 ^ 31)
    (hwf : ∀ v ∈ vbs, varbindOk v = true)
    (hszv : ∀ v ∈ vbs, ∀ c, respVarbindContent v = some c → c.length ≤ 127)
    (hszL : ∀ L, respVblContent vbs = some L → L.length ≤ 127)
    (hszP : ∀ pc, respPduContent pdu vbs es ei = some pc → pc.length ≤ 127) :
    ∃ pc, respPduContent pdu vbs es ei = some pc ∧ pc.length ≤ 127 ∧
      build_response_pdu pdu vbs es ei = some (encode_sequence pc GET_RESPONSE_TAG) ∧
      ∀ rest, decode_pdu (encode_sequence pc GET_RESPONSE_TAG ++ rest) =
        .ok (⟨PduType.GET_RESPONSE, pdu.request_id, es, ei, vbs⟩, rest) := by
  obtain ⟨L, hL, hAux⟩ := respVbl_spec hwf hszv
  have hLlen := hszL L hL
  have hvbl : build_response_varbind_list vbs = some (encode_sequence L SEQUENCE_TAG) := by
    rw [build_response_varbind_list, hL]
    rfl
  have hpc : respPduContent pdu vbs es ei = some
      (encode_integer pdu.request_id ++ encode_integer es ++ encode_integer ei ++
        encode_sequence L SEQUENCE_TAG) := by
    rw [respPduContent, hvbl]
  have hpclen := hszP _ hpc
  refine ⟨_, hpc, hpclen, ?_, ?_⟩
  · rw [build_response_pdu, hpc]
    rfl
  · intro rest
    simp only [decode_pdu, peek_encode_sequence,
      show tagToPduType GET_RESPONSE_TAG = .ok PduType.GET_RESPONSE from rfl,
      decode_sequence_encode hpclen (show seqTagOk GET_RESPONSE_TAG = true from rfl) rest]
    simp only [List.append_assoc]
    simp only [decode_encode_integer pdu.request_id hid1 hid2]
    simp only [decode_encode_integer es hes1 hes2]
    simp only [decode_encode_integer ei hei1 hei2]
    have hvl := decode_varbind_list_spec hLlen hAux []
    rw [List.append_nil] at hvl
    simp only [hvl]

/-- Range of an i32 value. -/
def IntOk (i : Int) : Prop := -(2 ^ 31) ≤ i ∧ i < 2 ^ 31

/-- All four buffers of the response builder fit the short length form. -/
def respSizesOk (req : SnmpMessage) (vbs : List Varbind) (es ei : Int) : Prop :=
  (∀ v ∈ vbs, ∀ c, respVarbindContent v = some c → c.length ≤ 127) ∧
  (∀ L, respVblContent vbs = some L → L.length ≤ 127) ∧
  (∀ pc, respPduContent req.pdu vbs es ei = some pc → pc.length ≤ 127) ∧
  (∀ mc, respMsgContent req vbs es ei = some mc → mc.length ≤ 127)

/-- C6: all three handlers build their reply through build response message,
and the built reply carries the same version and community bytes as the
request, the GetResponse PDU tag 0xA2, and the same request id as the
request PDU (together with the supplied error fields and varbinds), as
witnessed by decoding the built bytes. Stated for every decoded request
(whose version is necessarily 0) with i32 error fields, well formed response
varbinds and short form sizes. -/
theorem c6_response_preserves_header (req : SnmpMessage) (vbs : List Varbind)
    (es ei : Int)
    (hv : req.version = 0)
    (hcomm : req.community.length ≤ 127)
    (hid : IntOk req.pdu.request_id) (hes : IntOk es) (hei : IntOk ei)
    (hwf : ∀ v ∈ vbs, varbindOk v = true)
    (hsz : respSizesOk req vbs es ei) :
    (∀ mib, handle_get_request mib req =
      build_response_message req (getLoop mib req.pdu.varbinds 0 0 0).1
        (getLoop mib req.pdu.varbinds 0 0 0).2.1
        (getLoop mib req.pdu.varbinds 0 0 0).2.2) ∧
    (∀ mib, handle_get_next_request mib req =
      build_response_message req (getNextLoop mib req.pdu.varbinds 0 0 0).1
        (getNextLoop mib req.pdu.varbinds 0 0 0).2.1
        (getNextLoop mib req.pdu.varbinds 0 0 0).2.2) ∧
    (∀ mib, (handle_set_request mib req).2 =
      build_response_message req req.pdu.varbinds 0 0) ∧
    ∃ out, build_response_message req vbs es ei = some out ∧
      ∃ m, decode_snmp_message out = .ok m ∧
        m.version = req.version ∧
        m.community = req.community ∧
        m.pdu.pdu_type = PduType.GET_RESPONSE ∧
        m.pdu.request_id = req.pdu.request_id ∧
        m.pdu.error_status = es ∧
        m.pdu.error_index = ei ∧
        m.pdu.varbinds = vbs := by
  obtain ⟨hsz1, hsz2, hsz3, hsz4⟩ := hsz
  obtain ⟨pc, hpc, hpclen, hpdub, hpdudec⟩ :=
    build_response_pdu_spec req.pdu vbs es ei hid.1 hid.2 hes.1 hes.2 hei.1 hei.2
      hwf hsz1 hsz2 hsz3
  have hmc : respMsgContent req vbs es ei = some
      (encode_integer req.version ++ encode_octet_string req.community ++
        encode_sequence pc GET_RESPONSE_TAG) := by
    rw [respMsgContent, hpdub]
  have hmclen := hsz4 _ hmc
  refine ⟨fun _ => rfl, fun _ => rfl, fun _ => rfl, ?_⟩
  have hseq := decode_sequence_encode hmclen
    (show seqTagOk SEQUENCE_TAG = true from rfl) ([] : List Nat)
  rw [List.append_nil] at hseq
  have hpd := hpdudec []
  rw [List.append_nil] at hpd
  have hdec : decode_snmp_message
      (encode_sequence
        (encode_integer req.version ++ encode_octet_string req.community ++
          encode_sequence pc GET_RESPONSE_TAG) SEQUENCE_TAG) =
      .ok ⟨0, req.community,
        ⟨PduType.GET_RESPONSE, req.pdu.request_id, es, ei, vbs⟩⟩ := by
    simp only [decode_snmp_message, hseq]
    simp only [List.append_assoc]
    rw [hv]
    simp only [decode_encode_integer 0 (by norm_num) (by norm_num)]
    rw [if_neg (by norm_num [SNMP_VERSION_1] : ¬ (0 : Int) ≠ (SNMP_VERSION_1 : Int))]
    simp only [decode_octet_string_encode hcomm]
    simp only [hpd]
  refine ⟨_, by rw [build_response_message, hmc]; rfl,
    ⟨0, req.community, ⟨PduType.GET_RESPONSE, req.pdu.request_id, es, ei, vbs⟩⟩,
    hdec, hv.symm, rfl, rfl, rfl, rfl, rfl, rfl⟩

theorem encode_integer_small {v : Int} (h0 : 0 ≤ v) (h7 : v ≤ 127) :
    encode_integer v = [0x02, 1, v.toNat] := by
  have hl : intLen v = 1 := by rw [intLen.eq_def, if_neg (by omega)]
  rw [encode_integer, hl]
  rw [encode_length, if_pos (by norm_num)]
  have hb : (v / 2 ^ (8 * 0)) % 256 = v := by
    simp only [Nat.mul_zero, pow_zero, Int.ediv_one]
    omega
  simp [show List.range 1 = [0] from rfl, hb, INTEGER_TAG]
  omega

/-- Witness for C6 at a concrete request (version 0, community byte 0x70,
GetRequest with request id 1) answered with a single Null varbind: the built
response decodes back with the same header fields and the GetResponse kind. -/
theorem c6_response_preserves_header_witness :
    ∃ out, build_response_message
        ⟨0, [0x70], ⟨PduType.GET_REQUEST, 1, 0, 0, [⟨[1, 3, 1], SnmpValue.Null⟩]⟩⟩
        [⟨[1, 3, 1], SnmpValue.Null⟩] 0 0 = some out ∧
      ∃ m, decode_snmp_message out = .ok m ∧ m.version = 0 ∧
        m.community = [0x70] ∧ m.pdu.pdu_type = PduType.GET_RESPONSE ∧
        m.pdu.request_id = 1 := by
  have e0 : encode_integer 0 = [0x02, 1, 0] := by
    rw [encode_integer_small (by norm_num) (by norm_num)]
    rfl
  have e1 : encode_integer 1 = [0x02, 1, 1] := by
    rw [encode_integer_small (by norm_num) (by norm_num)]
    rfl
  have hvb : respVarbindContent ⟨[1, 3, 1], SnmpValue.Null⟩ =
      some [6, 2, 43, 1, 5, 0] := by decide
  have hvbl : respVblContent [⟨[1, 3, 1], SnmpValue.Null⟩] =
      some [51, 6, 6, 2, 43, 1, 5, 0] := by decide
  have hbvl : build_response_varbind_list [⟨[1, 3, 1], SnmpValue.Null⟩] =
      some [51, 8, 51, 6, 6, 2, 43, 1, 5, 0] := by decide
  have hpc : respPduContent ⟨PduType.GET_REQUEST, 1, 0, 0, [⟨[1, 3, 1], SnmpValue.Null⟩]⟩
      [⟨[1, 3, 1], SnmpValue.Null⟩] 0 0 =
      some [2, 1, 1, 2, 1, 0, 2, 1, 0, 51, 8, 51, 6, 6, 2, 43, 1, 5, 0] := by
    rw [respPduContent, hbvl]
    show some (encode_integer 1 ++ encode_integer 0 ++ encode_integer 0 ++
      [51, 8, 51, 6, 6, 2, 43, 1, 5, 0]) = _
    rw [e0, e1]
    rfl
  have hpdub : build_response_pdu
      ⟨PduType.GET_REQUEST, 1, 0, 0, [⟨[1, 3, 1], SnmpValue.Null⟩]⟩
      [⟨[1, 3, 1], SnmpValue.Null⟩] 0 0 =
      some [162, 19, 2, 1, 1, 2, 1, 0, 2, 1, 0, 51, 8, 51, 6, 6, 2, 43, 1, 5, 0] := by
    rw [build_response_pdu, hpc]
    rfl
  have hmc : respMsgContent
      ⟨0, [0x70], ⟨PduType.GET_REQUEST, 1, 0, 0, [⟨[1, 3, 1], SnmpValue.Null⟩]⟩⟩
      [⟨[1, 3, 1], SnmpValue.Null⟩] 0 0 =
      some [2, 1, 0, 4, 1, 112, 162, 19, 2, 1, 1, 2, 1, 0, 2, 1, 0,
        51, 8, 51, 6, 6, 2, 43, 1, 5, 0] := by
    rw [respMsgContent, hpdub]
    show some (encode_integer 0 ++ encode_octet_string [0x70] ++
      [162, 19, 2, 1, 1, 2, 1, 0, 2, 1, 0, 51, 8, 51, 6, 6, 2, 43, 1, 5, 0]) = _
    rw [e0]
    rfl
  have h := c6_response_preserves_header
    ⟨0, [0x70], ⟨PduType.GET_REQUEST, 1, 0, 0, [⟨[1, 3, 1], SnmpValue.Null⟩]⟩⟩
    [⟨[1, 3, 1], SnmpValue.Null⟩] 0 0
    rfl (by decide) ⟨by norm_num, by norm_num⟩ ⟨by norm_num, by norm_num⟩
    ⟨by norm_num, by norm_num⟩ (by decide) ?_
  · obtain ⟨out, hout, m, hm, h1, h2, h3, h4, _⟩ := h.2.2.2
    exact ⟨out, hout, m, hm, h1, h2, h3, h4⟩
  · refine ⟨?_, ?_, ?_, ?_⟩
    · intro v hvmem c hc
      rw [List.mem_singleton] at hvmem
      subst hvmem
      rw [hvb] at hc
      cases hc
      decide
    · intro L hL
      rw [hvbl] at hL
      cases hL
      decide
    · intro pcx hx
      rw [hpc] at hx
      cases hx
      decide
    · intro mcx hx
      rw [hmc] at hx
      cases hx
      decide
